import Mathlib

/-!
Shallow embedding of the freespace-sim allocation engines
(src/buddy.rs, src/freelist.rs, src/lib.rs) and proofs about them.

Machine integers (`usize`) are modelled as `ℕ`; the simulated address
space is far below any overflow boundary, and no operation in the
embedded code subtracts below zero on the reachable states considered.
`HashMap<usize, (usize, usize)>` is modelled as an association list with
the `HashMap` semantics: `insert` replaces any existing binding of the
key, `remove` deletes the binding.  No modelled observation depends on
iteration order (the only folds over the map are commutative sums).
-/

/-! ### Association-list model of std::collections::HashMap -/

/-- `HashMap::insert`: binds `k` to `v`, replacing any earlier binding. -/
def mapInsert (m : List (ℕ × ℕ × ℕ)) (k : ℕ) (v : ℕ × ℕ) : List (ℕ × ℕ × ℕ) :=
  (k, v) :: m.filter (fun e => e.1 ≠ k)

/-- `HashMap::get`/lookup used by `remove`: the value bound to `k`, if any. -/
def mapLookup (m : List (ℕ × ℕ × ℕ)) (k : ℕ) : Option (ℕ × ℕ) :=
  (m.find? (fun e => e.1 = k)).map (fun e => e.2)

/-- The deletion part of `HashMap::remove`. -/
def mapErase (m : List (ℕ × ℕ × ℕ)) (k : ℕ) : List (ℕ × ℕ × ℕ) :=
  m.filter (fun e => e.1 ≠ k)

/-- The key set of the map (as a list). -/
def mapKeys (m : List (ℕ × ℕ × ℕ)) : List ℕ := m.map (fun e => e.1)

/-! ### Exact ceil-log2

`buddy.rs` computes `(size as f32).log2().ceil() as usize`.  We embed the
exact mathematical function: the least `j` with `size ≤ 2 ^ j` (and `0`
for `size = 0`, matching the saturating `as usize` cast of `-inf`).  The
f32 pipeline agrees with this on every concrete state evaluated below, but
diverges for large sizes: `(2^24 + 1) as f32` rounds to `2^24` (round to
nearest, ties to even, on a 24-bit significand), so the code computes size
class 24 where the exact function gives 25; the code then grants a block
smaller than the request, `(1 << j) - size` underflows, and on a heap with
`max_size = 24` the probe loop in `largest_alloc` never fails and its
`unwrap` panics.  (Depending on the platform's `log2f`, the first
divergence can appear at even smaller sizes, e.g. `2^21 + 1`.)  Theorems
that quantify over request sizes therefore describe this exact model; at
such large sizes they are not faithful to the program's f32 computation.
A structurally recursive first-point search keeps everything
kernel-reducible. -/

/-- First `y` in `[x, x + fuel)` satisfying `p`, else `x + fuel`. -/
def findFirst (p : ℕ → Bool) (x : ℕ) : ℕ → ℕ
  | 0 => x
  | fuel + 1 => if p x then x else findFirst p (x + 1) fuel

/-- Least `j` with `size ≤ 2 ^ j` (`ceil(log2 size)` for `size ≥ 1`). -/
def clog2 (size : ℕ) : ℕ := findFirst (fun j => size ≤ 2 ^ j) 0 (size + 1)

/-! ### Buddy allocator (src/buddy.rs)

A `Level` is a `Vec<Block>`; all blocks stored at level `i` carry size
class `min_size + i` (the code always pushes a block whose `size_class`
field equals the class of the level it is pushed to), so a level is
embedded as the list of its block addresses. -/

structure BuddyAllocator where
  min_size : ℕ
  max_size : ℕ
  levels : List (List ℕ)
  sizemap : List (ℕ × ℕ × ℕ)
  deriving Repr, DecidableEq

namespace BuddyAllocator

/-- `BuddyAllocator::new`: empty levels `min_size..max_size`, plus the top
level holding the single block at address 0. -/
def new (min_size max_size : ℕ) : BuddyAllocator :=
  { min_size := min_size
    max_size := max_size
    levels := List.replicate (max_size - min_size) [] ++ [[0]]
    sizemap := [] }

/-- Blocks stored at level index `i` (empty for an out-of-range index). -/
def getLevel (ls : List (List ℕ)) (i : ℕ) : List ℕ := ls.getD i []

/-- `Level::add`: `Vec::push` appends at the back. -/
def pushLevel (ls : List (List ℕ)) (i : ℕ) (a : ℕ) : List (List ℕ) :=
  ls.set i (getLevel ls i ++ [a])

/-- The `while curr_size_class <= self.max_size` search loop of
`check_size`/`malloc`: first class in `[c, max]` whose level is nonempty.
`fuel` is `max + 1 - c` at the outer call, so running out of fuel is
exactly the loop exiting with `curr_size_class == max_size + 1`. -/
def upscanGo (ls : List (List ℕ)) (min : ℕ) : ℕ → ℕ → Option ℕ
  | _, 0 => none
  | c, fuel + 1 => if getLevel ls (c - min) ≠ [] then some c else upscanGo ls min (c + 1) fuel

def upscan (ls : List (List ℕ)) (min max c : ℕ) : Option ℕ :=
  upscanGo ls min c (max + 1 - c)

/-- The splitting loop of `malloc` (`while curr_size_class >= j`): starting
from a block of class `j + steps` at address `a`, push the upper buddy
`a ^^^ 2 ^ t` (source: `addr ^ (1 << t)`) at each class `t = j + steps - 1`
down to `j`, keeping address `a`. -/
def splitDown (a min j : ℕ) : ℕ → List (List ℕ) → List (List ℕ)
  | 0, ls => ls
  | steps + 1, ls => splitDown a min j steps (pushLevel ls (j + steps - min) (a ^^^ 2 ^ (j + steps)))

/-- `BuddyAllocator::malloc` (returns the result and the new state). -/
def malloc (s : BuddyAllocator) (size : ℕ) : Option ℕ × BuddyAllocator :=
  let j0 := clog2 size
  if j0 > s.max_size then (none, s)
  else
    let j := if j0 < s.min_size then s.min_size else j0
    let diff := 2 ^ j - size
    let i := j - s.min_size
    match getLevel s.levels i with
    | a :: rest =>
        -- current level has a free block: pop front, record in sizemap
        (some a, { s with levels := s.levels.set i rest
                          sizemap := mapInsert s.sizemap a (j, diff) })
    | [] =>
        match upscan s.levels s.min_size s.max_size (j + 1) with
        | none => (none, s)
        | some c =>
            let lv := getLevel s.levels (c - s.min_size)
            let a := lv.headD 0
            let ls1 := s.levels.set (c - s.min_size) lv.tail
            (some a, { s with levels := splitDown a s.min_size j (c - j) ls1
                              sizemap := mapInsert s.sizemap a (j, diff) })

/-- The merge loop of `free` (`while size_class <= self.max_size`): look for
the buddy `ptr ^^^ 2 ^ c` at level `c`; if present remove it and move up a
class, else insert `ptr` at level `c` and stop.  `fuel` is `max + 1 - c`
initially; running out of fuel is the source loop exiting past `max_size`
without inserting (the carried block is dropped in that case, exactly as in
the source). -/
def freeLoopGo (ptr min : ℕ) : ℕ → ℕ → List (List ℕ) → List (List ℕ)
  | _, 0, ls => ls
  | c, fuel + 1, ls =>
      let i := c - min
      let bud := ptr ^^^ 2 ^ c
      if bud ∈ getLevel ls i then
        freeLoopGo ptr min (c + 1) fuel (ls.set i ((getLevel ls i).erase bud))
      else
        pushLevel ls i ptr

def freeLoop (ptr min max c : ℕ) (ls : List (List ℕ)) : List (List ℕ) :=
  freeLoopGo ptr min c (max + 1 - c) ls

/-- `BuddyAllocator::free`. -/
def free (s : BuddyAllocator) (ptr : ℕ) : Except String BuddyAllocator :=
  match mapLookup s.sizemap ptr with
  | none => Except.error "pointer not found"
  | some (c, _) =>
      Except.ok { s with sizemap := mapErase s.sizemap ptr
                         levels := freeLoop ptr s.min_size s.max_size c s.levels }

/-- The state after `free` (the source mutates in place; a failed free
leaves the state untouched). -/
def freeSt (s : BuddyAllocator) (ptr : ℕ) : BuddyAllocator :=
  match free s ptr with
  | Except.ok s' => s'
  | Except.error _ => s

/-- Whether `free` succeeds. -/
def freeOk (s : BuddyAllocator) (ptr : ℕ) : Bool :=
  match free s ptr with
  | Except.ok _ => true
  | Except.error _ => false

/-- `BuddyAllocator::check_size`. -/
def check_size (s : BuddyAllocator) (size : ℕ) : Bool :=
  let j0 := clog2 size
  if j0 > s.max_size then false
  else
    let j := if j0 < s.min_size then s.min_size else j0
    if getLevel s.levels (j - s.min_size) ≠ [] then true
    else (upscan s.levels s.min_size s.max_size (j + 1)).isSome

/-- `BuddyAllocator::largest_alloc`: probe sizes `1..=2^max_size + 1` for the
first that fails `check_size`, minus one. -/
def largest_alloc (s : BuddyAllocator) : ℕ :=
  findFirst (fun x => ! check_size s x) 1 (2 ^ s.max_size + 1) - 1

/-- `BuddyAllocator::free_space`: sum over levels of `2^class * #blocks`. -/
def freeSpaceLv (k : ℕ) : List (List ℕ) → ℕ
  | [] => 0
  | bl :: rest => 2 ^ k * bl.length + freeSpaceLv (k + 1) rest

def free_space (s : BuddyAllocator) : ℕ := freeSpaceLv s.min_size s.levels

/-- `BuddyAllocator::internal_frag`: sum of the stored padding values. -/
def internal_frag (s : BuddyAllocator) : ℕ :=
  (s.sizemap.map (fun e => e.2.2)).sum

/-- Sum of granted sizes (`2^class`) of live allocations. -/
def grantedSum (s : BuddyAllocator) : ℕ :=
  (s.sizemap.map (fun e => 2 ^ e.2.1)).sum

end BuddyAllocator

/-! ### Free-list allocator (src/freelist.rs) -/

inductive Policy where
  | Best : Policy
  | First : Policy
  deriving Repr, DecidableEq

structure FreeNode where
  addr : ℕ
  size : ℕ
  deriving Repr, DecidableEq

structure FreeList where
  max_size : ℕ
  align : ℕ
  policy : Policy
  coalesce : Bool
  freelist : List FreeNode
  sizemap : List (ℕ × ℕ × ℕ)
  deriving Repr, DecidableEq

namespace FreeList

/-- `FreeList::new` (the source aborts on `max_size == 0`; reachable states
always have `max_size ≥ 1`). -/
def new (base_addr max_size : ℕ) (coalesce : Bool) : FreeList :=
  { max_size := max_size
    align := 0
    policy := Policy.Best
    coalesce := coalesce
    freelist := [⟨base_addr, max_size⟩]
    sizemap := [] }

/-- Builder `FreeList::align`. -/
def setAlign (s : FreeList) (a : ℕ) : FreeList := { s with align := a }

/-- Builder `FreeList::policy`. -/
def setPolicy (s : FreeList) (p : Policy) : FreeList := { s with policy := p }

/-- The loop body of `FreeList::best`: scan with running best size
(initialised to `max_size`); a node is taken when `size <= node.size`
and `node.size <= bestsize`, so equal sizes move the index forward. -/
def bestGo (size : ℕ) : List FreeNode → ℕ → ℕ → Option ℕ → Option ℕ
  | [], _, _, idx => idx
  | n :: rest, i, bestsize, idx =>
      if size ≤ n.size ∧ n.size ≤ bestsize then bestGo size rest (i + 1) n.size (some i)
      else bestGo size rest (i + 1) bestsize idx

/-- `FreeList::best`. -/
def best (s : FreeList) (size : ℕ) : Option ℕ :=
  bestGo size s.freelist 0 s.max_size none

/-- `FreeList::first`: index of the first node with `size <= node.size`. -/
def firstGo (size : ℕ) : List FreeNode → ℕ → Option ℕ
  | [], _ => none
  | n :: rest, i => if size ≤ n.size then some i else firstGo size rest (i + 1)

def first (s : FreeList) (size : ℕ) : Option ℕ :=
  firstGo size s.freelist 0

/-- Alignment rounding at the top of `malloc`/`check_size`: the rounded
size and the padding `diff`. -/
def alignUp (align size : ℕ) : ℕ × ℕ :=
  if 1 < align then
    let left := size % align
    if left ≠ 0 then (size + (align - left), align - left) else (size, 0)
  else (size, 0)

/-- `FreeList::check_size`. -/
def check_size (s : FreeList) (size0 : ℕ) : Bool :=
  let size := (alignUp s.align size0).1
  match s.policy with
  | Policy.Best => (best s size).isSome
  | Policy.First => (first s size).isSome

/-- `FreeList::malloc`.  The `Ordering::Greater` arm of the source aborts
("Not possible"); it is unreachable because `best`/`first` only select
nodes with `size <= node.size` (`select_adequate` below), and is embedded
as a failure that leaves the state unchanged. -/
def malloc (s : FreeList) (size0 : ℕ) : Option ℕ × FreeList :=
  let sd := alignUp s.align size0
  let size := sd.1
  let diff := sd.2
  let idx := match s.policy with
    | Policy.Best => best s size
    | Policy.First => first s size
  match idx with
  | none => (none, s)
  | some i =>
      let node := s.freelist.getD i ⟨0, 0⟩
      let sm := mapInsert s.sizemap node.addr (size, diff)
      if size = node.size then
        (some node.addr, { s with freelist := s.freelist.eraseIdx i, sizemap := sm })
      else if size < node.size then
        (some node.addr,
         { s with freelist := s.freelist.set i ⟨node.addr + size, node.size - size⟩
                  sizemap := sm })
      else (none, s)

/-- Address order used by `sort_unstable_by_key(|node| node.addr)`. -/
def nodeLE (a b : FreeNode) : Prop := a.addr ≤ b.addr

instance : DecidableRel nodeLE := fun a b => Nat.decLe a.addr b.addr

instance : IsTotal FreeNode nodeLE := ⟨fun a b => Nat.le_total a.addr b.addr⟩

instance : IsTrans FreeNode nodeLE := ⟨fun _ _ _ => Nat.le_trans⟩

/-- The free list sorted by address.  (`sort_unstable_by_key` and insertion
sort agree whenever addresses are distinct, which holds on all states where
order matters below.) -/
def sortNodes (l : List FreeNode) : List FreeNode := List.insertionSort nodeLE l

/-- The loop of `FreeList::coalesce` on `curr` and the remaining nodes:
merge every address-adjacent pair in one left-to-right pass. -/
def coalesceGo (curr : FreeNode) : List FreeNode → List FreeNode
  | [] => [curr]
  | node :: rest =>
      if node.addr = curr.addr + curr.size then
        coalesceGo ⟨curr.addr, curr.size + node.size⟩ rest
      else curr :: coalesceGo node rest

/-- `FreeList::coalesce` (the source indexes `freelist[0]`, so it is only
ever called on a nonempty list — `free` pushes before coalescing). -/
def coalesceList : List FreeNode → List FreeNode
  | [] => []
  | c :: rest => coalesceGo c rest

/-- `FreeList::free`. -/
def free (s : FreeList) (ptr : ℕ) : Except String FreeList :=
  match mapLookup s.sizemap ptr with
  | none => Except.error "Pointer not found"
  | some (size, _) =>
      let l := sortNodes (s.freelist ++ [⟨ptr, size⟩])
      Except.ok { s with sizemap := mapErase s.sizemap ptr
                         freelist := if s.coalesce then coalesceList l else l }

def freeSt (s : FreeList) (ptr : ℕ) : FreeList :=
  match free s ptr with
  | Except.ok s' => s'
  | Except.error _ => s

def freeOk (s : FreeList) (ptr : ℕ) : Bool :=
  match free s ptr with
  | Except.ok _ => true
  | Except.error _ => false

/-- `FreeList::largest_alloc`: probe `1..=max_size + 1`. -/
def largest_alloc (s : FreeList) : ℕ :=
  findFirst (fun x => ! check_size s x) 1 (s.max_size + 1) - 1

/-- `FreeList::free_space`. -/
def free_space (s : FreeList) : ℕ := (s.freelist.map (fun n => n.size)).sum

/-- `FreeList::internal_frag`. -/
def internal_frag (s : FreeList) : ℕ := (s.sizemap.map (fun e => e.2.2)).sum

/-- Sum of granted sizes (aligned requested sizes) of live allocations. -/
def grantedSum (s : FreeList) : ℕ := (s.sizemap.map (fun e => e.2.1)).sum

end FreeList

/-! ### external_frag (the default method in src/lib.rs)

`external_frag` is f32 arithmetic: `1.0 - largest as f32 / free as f32`.
We embed just enough of IEEE-754 to settle the zero-denominator question:
values are NaN, ±infinity, or a finite rational (division of finite values
by a nonzero denominator is embedded as exact rational division; rounding
is irrelevant to the NaN analysis, which is all the claims touch). -/

inductive F32 where
  | nan : F32
  | inf : F32
  | ninf : F32
  | fin : ℚ → F32
  deriving DecidableEq

/-- IEEE division, restricted to the shapes `external_frag` produces. -/
def F32.div : F32 → F32 → F32
  | F32.fin a, F32.fin b =>
      if b = 0 then (if a = 0 then F32.nan else if 0 < a then F32.inf else F32.ninf)
      else F32.fin (a / b)
  | _, _ => F32.nan

/-- IEEE subtraction, restricted likewise (`1.0 - x`). -/
def F32.sub : F32 → F32 → F32
  | F32.fin a, F32.fin b => F32.fin (a - b)
  | F32.fin _, F32.inf => F32.ninf
  | F32.fin _, F32.ninf => F32.inf
  | _, _ => F32.nan

/-- `Allocator::external_frag` on a pair (largest_alloc, free_space). -/
def externalFragOf (largest free : ℕ) : F32 :=
  F32.sub (F32.fin 1) (F32.div (F32.fin largest) (F32.fin free))

def BuddyAllocator.external_frag (s : BuddyAllocator) : F32 :=
  externalFragOf s.largest_alloc s.free_space

def FreeList.external_frag (s : FreeList) : F32 :=
  externalFragOf s.largest_alloc s.free_space

/-! ### Reachable states

A state is reachable when it arises from a well-formed constructor call by
any sequence of `malloc`/`free` calls with positive request sizes. -/

inductive ReachB : BuddyAllocator → Prop where
  | init (min max : ℕ) (h : min ≤ max) : ReachB (BuddyAllocator.new min max)
  | malloc {s : BuddyAllocator} (size : ℕ) (h : ReachB s) (hpos : 1 ≤ size) :
      ReachB (BuddyAllocator.malloc s size).2
  | free {s : BuddyAllocator} (ptr : ℕ) (h : ReachB s) : ReachB (BuddyAllocator.freeSt s ptr)

inductive ReachF : FreeList → Prop where
  | init (base max : ℕ) (al : ℕ) (p : Policy) (co : Bool) (h : 1 ≤ max) :
      ReachF (((FreeList.new base max co).setAlign al).setPolicy p)
  | malloc {s : FreeList} (size : ℕ) (h : ReachF s) (hpos : 1 ≤ size) :
      ReachF (FreeList.malloc s size).2
  | free {s : FreeList} (ptr : ℕ) (h : ReachF s) : ReachF (FreeList.freeSt s ptr)

/-! ### Pieces and windows

For the invariant proofs each engine's state is flattened to a list of
"pieces".  A free-list piece is the half-open interval `[addr, addr+size)`.
A buddy piece `(a, k)` denotes the aligned window of length `2^k`
containing `a` (the source's merge bug can store a block address anywhere
inside its window, but the XOR discipline keeps the windows coherent). -/

/-- Pieces `(class k, address a)` of the buddy levels, with classes
`k, k+1, ...` by level. -/
def levelPieces (k : ℕ) : List (List ℕ) → List (ℕ × ℕ)
  | [] => []
  | bl :: rest => bl.map (fun a => (a, k)) ++ levelPieces (k + 1) rest

/-- All pieces of a buddy state: free blocks plus granted entries. -/
def bPieces (s : BuddyAllocator) : List (ℕ × ℕ) :=
  levelPieces s.min_size s.levels ++ s.sizemap.map (fun e => (e.1, e.2.1))

/-- Lower end of the aligned window of a buddy piece. -/
def wlo (p : ℕ × ℕ) : ℕ := 2 ^ p.2 * (p.1 / 2 ^ p.2)

/-- Upper end of the aligned window of a buddy piece. -/
def whi (p : ℕ × ℕ) : ℕ := wlo p + 2 ^ p.2

/-- Windows of two buddy pieces are disjoint. -/
def WDisj (p q : ℕ × ℕ) : Prop := whi p ≤ wlo q ∨ whi q ≤ wlo p

/-- Bounds a buddy piece must satisfy: class in `[min, max]`, address
inside the space. -/
def pieceOK (min max : ℕ) (p : ℕ × ℕ) : Prop :=
  min ≤ p.2 ∧ p.2 ≤ max ∧ p.1 < 2 ^ max

/-- Invariant of the buddy allocator: well-formed level vector, all piece
windows inside the space, pairwise disjoint windows, the window sizes sum
to the capacity, and distinct sizemap keys. -/
def INVb (s : BuddyAllocator) : Prop :=
  s.min_size ≤ s.max_size ∧
  s.levels.length = s.max_size + 1 - s.min_size ∧
  (∀ p ∈ bPieces s, pieceOK s.min_size s.max_size p) ∧
  (bPieces s).Pairwise WDisj ∧
  ((bPieces s).map (fun p => 2 ^ p.2)).sum = 2 ^ s.max_size ∧
  (mapKeys s.sizemap).Nodup

/-- Pieces of a free-list state: free intervals plus granted intervals,
each as `(addr, size)`. -/
def fPieces (s : FreeList) : List (ℕ × ℕ) :=
  s.freelist.map (fun n => (n.addr, n.size)) ++ s.sizemap.map (fun e => (e.1, e.2.1))

/-- Interval disjointness of `(addr, size)` pieces. -/
def IDisj (p q : ℕ × ℕ) : Prop := p.1 + p.2 ≤ q.1 ∨ q.1 + q.2 ≤ p.1

/-- Strict-gap order on free nodes (holds pairwise along the free list of
every reachable coalescing state). -/
def gapLt (a b : FreeNode) : Prop := a.addr + a.size < b.addr

/-- Non-strict version: `a` ends at or before `b` starts. -/
def hiLe (a b : FreeNode) : Prop := a.addr + a.size ≤ b.addr

/-- Invariant of the free-list allocator. -/
def INVf (s : FreeList) : Prop :=
  1 ≤ s.max_size ∧
  (∀ p ∈ fPieces s, 0 < p.2) ∧
  (fPieces s).Pairwise IDisj ∧
  ((fPieces s).map (fun p => p.2)).sum = s.max_size ∧
  (mapKeys s.sizemap).Nodup ∧
  (s.coalesce = true → s.freelist.Pairwise gapLt)

/-! ### Concrete states used by individual claims -/

/-- Buddy state for C1: capacity-2 heap after
`malloc(1); malloc(1); free(0); free(1)`. -/
def c1state : BuddyAllocator :=
  BuddyAllocator.freeSt
    (BuddyAllocator.freeSt
      (BuddyAllocator.malloc (BuddyAllocator.malloc (BuddyAllocator.new 0 1) 1).2 1).2 0) 1

/-- Free-list state for C5: heap `[0,4)`, three `malloc(1)` then `free(0)`,
leaving two free intervals of size 1 at addresses 0 and 3. -/
def c5state : FreeList :=
  FreeList.freeSt
    (FreeList.malloc
      (FreeList.malloc (FreeList.malloc (FreeList.new 0 4 false) 1).2 1).2 1).2 0

/-- The selection C5 asserts (spec wording): smallest adequate interval,
ties broken by FIRST occurrence.  Used only to exhibit the divergence from
the source's `best`. -/
def bestSpecFirstTie (l : List FreeNode) (size : ℕ) : Option ℕ :=
  match l.findIdx? (fun n =>
      size ≤ n.size ∧ ∀ m ∈ l, size ≤ m.size → n.size ≤ m.size) with
  | some i => some i
  | none => none

/-- Buddy state for C9: capacity-1 heap after `malloc(1)`; no free space. -/
def c9state : BuddyAllocator := (BuddyAllocator.malloc (BuddyAllocator.new 0 0) 1).2

/-- Free-list state for C10's counterexample: one interval of size 10 and a
zero-size interval at address 3 (reachable via a `malloc(0)`/`free` pair on
a coalescing heap). -/
def c10state : FreeList :=
  { max_size := 10, align := 0, policy := Policy.Best, coalesce := true
    freelist := [⟨0, 10⟩, ⟨3, 0⟩], sizemap := [] }

/-! ## Lemmas -/

/-! ### findFirst and clog2 -/

theorem findFirst_spec (p : ℕ → Bool) :
    ∀ (fuel x : ℕ), p (x + fuel) = true →
      p (findFirst p x fuel) = true ∧ x ≤ findFirst p x fuel ∧
      ∀ z, x ≤ z → z < findFirst p x fuel → p z = false := by
  intro fuel
  induction fuel with
  | zero =>
      intro x h
      refine ⟨by simpa using h, Nat.le_refl x, ?_⟩
      intro z hz1 hz2
      simp [findFirst] at hz2
      omega
  | succ n ih =>
      intro x h
      by_cases hx : p x = true
      · refine ⟨by simpa [findFirst, hx] using hx, by simp [findFirst, hx], ?_⟩
        intro z hz1 hz2
        simp [findFirst, hx] at hz2
        omega
      · have h' : p (x + 1 + n) = true := by
          have : x + 1 + n = x + (n + 1) := by omega
          rw [this]; exact h
        obtain ⟨h1, h2, h3⟩ := ih (x + 1) h'
        have hfx : findFirst p x (n + 1) = findFirst p (x + 1) n := by
          simp [findFirst, hx]
        refine ⟨by rw [hfx]; exact h1, by omega, ?_⟩
        intro z hz1 hz2
        rw [hfx] at hz2
        rcases Nat.eq_or_lt_of_le hz1 with hz | hz
        · simpa [← hz] using (Bool.not_eq_true _).mp hx
        · exact h3 z (by omega) hz2

theorem le_pow_clog2 (n : ℕ) : n ≤ 2 ^ clog2 n := by
  have h := findFirst_spec (fun j => decide (n ≤ 2 ^ j)) (n + 1) 0
    (by simp
        calc n ≤ 2 ^ n := Nat.le_of_lt (Nat.lt_two_pow n)
          _ ≤ 2 ^ (n + 1) := Nat.pow_le_pow_right (by norm_num) (by omega))
  have := h.1
  simpa [clog2] using this

theorem clog2_le_iff (n k : ℕ) : clog2 n ≤ k ↔ n ≤ 2 ^ k := by
  constructor
  · intro h
    exact Nat.le_trans (le_pow_clog2 n) (Nat.pow_le_pow_right (by norm_num) h)
  · intro h
    by_contra hc
    push_neg at hc
    have hs := findFirst_spec (fun j => decide (n ≤ 2 ^ j)) (n + 1) 0
      (by simp
          calc n ≤ 2 ^ n := Nat.le_of_lt (Nat.lt_two_pow n)
            _ ≤ 2 ^ (n + 1) := Nat.pow_le_pow_right (by norm_num) (by omega))
    have := hs.2.2 k (Nat.zero_le k) (by simpa [clog2] using hc)
    simp at this
    omega

theorem lt_clog2_iff (n k : ℕ) : k < clog2 n ↔ 2 ^ k < n := by
  have := clog2_le_iff n k
  omega

/-! ### Association-list map lemmas -/

theorem mapLookup_mem {m : List (ℕ × ℕ × ℕ)} {k : ℕ} {v : ℕ × ℕ}
    (h : mapLookup m k = some v) : (k, v) ∈ m := by
  unfold mapLookup at h
  cases hf : m.find? (fun e => e.1 = k) with
  | none => rw [hf] at h; simp at h
  | some e =>
      rw [hf] at h
      simp at h
      have he := List.find?_some hf
      have hm := List.mem_of_find?_eq_some hf
      simp at he
      have : e = (k, v) := by
        cases e with
        | mk e1 e2 => simp at he ⊢; exact ⟨he, h⟩
      rwa [this] at hm

theorem mapLookup_none_iff {m : List (ℕ × ℕ × ℕ)} {k : ℕ} :
    mapLookup m k = none ↔ k ∉ mapKeys m := by
  unfold mapLookup mapKeys
  rw [Option.map_eq_none', List.find?_eq_none]
  constructor
  · intro h hk
    obtain ⟨e, he, hek⟩ := List.mem_map.mp hk
    exact absurd (by simpa using hek) (by simpa using h e he)
  · intro h e he
    simp
    intro hek
    exact h (List.mem_map.mpr ⟨e, he, hek⟩)

theorem mapLookup_isSome_iff {m : List (ℕ × ℕ × ℕ)} {k : ℕ} :
    (mapLookup m k).isSome = true ↔ k ∈ mapKeys m := by
  rcases h : mapLookup m k with _ | v
  · simp [mapLookup_none_iff.mp h]
  · simp
    by_contra hk
    rw [mapLookup_none_iff.mpr hk] at h
    simp at h

theorem mapErase_not_mem (m : List (ℕ × ℕ × ℕ)) (k : ℕ) : k ∉ mapKeys (mapErase m k) := by
  unfold mapErase mapKeys
  intro h
  obtain ⟨e, he, hek⟩ := List.mem_map.mp h
  have := List.of_mem_filter he
  simp at this
  exact this hek

theorem mapErase_eq_self {m : List (ℕ × ℕ × ℕ)} {k : ℕ} (h : k ∉ mapKeys m) :
    mapErase m k = m := by
  unfold mapErase
  apply List.filter_eq_self.mpr
  intro e he
  simp
  intro hek
  exact h (List.mem_map.mpr ⟨e, he, hek⟩)

theorem mapKeys_erase_sublist (m : List (ℕ × ℕ × ℕ)) (k : ℕ) :
    List.Sublist (mapKeys (mapErase m k)) (mapKeys m) :=
  List.Sublist.map _ (List.filter_sublist m)

theorem mapKeys_erase_nodup {m : List (ℕ × ℕ × ℕ)} (k : ℕ) (h : (mapKeys m).Nodup) :
    (mapKeys (mapErase m k)).Nodup :=
  (mapKeys_erase_sublist m k).nodup h

theorem mapKeys_insert_nodup {m : List (ℕ × ℕ × ℕ)} (k : ℕ) (v : ℕ × ℕ)
    (h : (mapKeys m).Nodup) : (mapKeys (mapInsert m k v)).Nodup := by
  unfold mapInsert mapKeys
  simp only [List.map_cons]
  refine List.Nodup.cons ?_ (mapKeys_erase_nodup k h)
  exact fun hk => mapErase_not_mem m k hk

theorem mapLookup_insert_self (m : List (ℕ × ℕ × ℕ)) (k : ℕ) (v : ℕ × ℕ) :
    mapLookup (mapInsert m k v) k = some v := by
  unfold mapLookup mapInsert
  rw [List.find?_cons_of_pos _ (by simp)]
  simp

theorem mapKeys_cons (e : ℕ × ℕ × ℕ) (rest : List (ℕ × ℕ × ℕ)) :
    mapKeys (e :: rest) = e.1 :: mapKeys rest := rfl

theorem mapErase_cons_self {e : ℕ × ℕ × ℕ} {k : ℕ} (rest : List (ℕ × ℕ × ℕ)) (h : e.1 = k) :
    mapErase (e :: rest) k = mapErase rest k := by
  unfold mapErase
  simp [h]

theorem mapErase_cons_ne {e : ℕ × ℕ × ℕ} {k : ℕ} (rest : List (ℕ × ℕ × ℕ)) (h : e.1 ≠ k) :
    mapErase (e :: rest) k = e :: mapErase rest k := by
  unfold mapErase
  simp [h]

theorem perm_cons_erase_of_lookup {m : List (ℕ × ℕ × ℕ)} {k : ℕ} {v : ℕ × ℕ}
    (hnd : (mapKeys m).Nodup) (h : mapLookup m k = some v) :
    List.Perm m ((k, v) :: mapErase m k) := by
  induction m with
  | nil => simp [mapLookup] at h
  | cons e rest ih =>
      rw [mapKeys_cons] at hnd
      have hnd2 := List.nodup_cons.mp hnd
      by_cases hek : e.1 = k
      · have hv : e = (k, v) := by
          unfold mapLookup at h
          rw [List.find?_cons_of_pos rest (by simpa using hek)] at h
          simp at h
          cases e with
          | mk e1 e2 =>
              simp at hek
              simp at h
              simp [hek, h]
        subst hv
        rw [mapErase_cons_self rest rfl]
        have hknotin : k ∉ mapKeys rest := by simpa using hnd2.1
        rw [mapErase_eq_self hknotin]
      · unfold mapLookup at h
        rw [List.find?_cons_of_neg rest (by simpa using hek)] at h
        have hperm := ih hnd2.2 h
        rw [mapErase_cons_ne rest hek]
        exact (hperm.cons e).trans (List.Perm.swap (k, v) e (mapErase rest k))

/-! ### Window arithmetic for the buddy discipline -/

theorem whi_mk (x k : ℕ) : whi (x, k) = wlo (x, k) + 2 ^ k := rfl

theorem wlo_le_self (p : ℕ × ℕ) : wlo p ≤ p.1 := by
  unfold wlo
  calc 2 ^ p.2 * (p.1 / 2 ^ p.2) = p.1 / 2 ^ p.2 * 2 ^ p.2 := Nat.mul_comm _ _
    _ ≤ p.1 := Nat.div_mul_le_self _ _

theorem self_lt_whi (p : ℕ × ℕ) : p.1 < whi p := by
  unfold whi wlo
  have h1 := Nat.div_add_mod p.1 (2 ^ p.2)
  have h2 : p.1 % 2 ^ p.2 < 2 ^ p.2 := Nat.mod_lt _ (Nat.pos_pow_of_pos _ (by norm_num))
  omega

theorem whi_le_pow {p : ℕ × ℕ} {max : ℕ} (hk : p.2 ≤ max) (ha : p.1 < 2 ^ max) :
    whi p ≤ 2 ^ max := by
  unfold whi wlo
  have hq : p.1 / 2 ^ p.2 < 2 ^ (max - p.2) := by
    rw [Nat.div_lt_iff_lt_mul (Nat.pos_pow_of_pos _ (by norm_num))]
    calc p.1 < 2 ^ max := ha
      _ = 2 ^ (max - p.2) * 2 ^ p.2 := by rw [← Nat.pow_add]; congr 1; omega
  calc 2 ^ p.2 * (p.1 / 2 ^ p.2) + 2 ^ p.2 = 2 ^ p.2 * (p.1 / 2 ^ p.2 + 1) := by ring
    _ ≤ 2 ^ p.2 * 2 ^ (max - p.2) := Nat.mul_le_mul_left _ (by omega)
    _ = 2 ^ max := by rw [← Nat.pow_add]; congr 1; omega

theorem wdisj_symm {p q : ℕ × ℕ} (h : WDisj p q) : WDisj q p := h.symm

/-- The two quotient-adjacent decomposition of a window at class `t`
inside its parent at class `t + 1`, together with the XOR buddy. -/
theorem win_decomp (a t : ℕ) :
    ∃ bb : ℕ, bb ≤ 1 ∧ a / 2 ^ t = 2 * (a / 2 ^ (t + 1)) + bb ∧
      (a ^^^ 2 ^ t) / 2 ^ t = 2 * (a / 2 ^ (t + 1)) + (1 - bb) := by
  have h1 : a / 2 ^ (t + 1) = a / 2 ^ t / 2 := by
    rw [Nat.div_div_eq_div_mul, Nat.pow_succ]
  refine ⟨a / 2 ^ t % 2, Nat.le_of_lt_succ (Nat.mod_lt _ (by norm_num)), by omega, ?_⟩
  have hA : (a ^^^ 2 ^ t) / 2 ^ t = (a / 2 ^ t) ^^^ 1 := by
    rw [← Nat.shiftRight_eq_div_pow, ← Nat.shiftRight_eq_div_pow]
    apply Nat.eq_of_testBit_eq
    intro i
    rw [Nat.testBit_shiftRight, Nat.testBit_xor, Nat.testBit_xor, Nat.testBit_shiftRight]
    congr 1
    rcases Nat.eq_zero_or_pos i with hi | hi
    · subst hi
      rw [Nat.testBit_two_pow]
      simp [Nat.testBit_one_zero]
    · rw [Nat.testBit_two_pow]
      have hne : ¬ (t = t + i) := by omega
      have h2 : (1 : ℕ).testBit i = false :=
        Nat.testBit_lt_two_pow (Nat.one_lt_two_pow (by omega))
      simp [hne, h2]
  have hB : (a / 2 ^ t) ^^^ 1 = 2 * (a / 2 ^ t / 2) + (1 - a / 2 ^ t % 2) := by
    set v := a / 2 ^ t with hv
    apply Nat.eq_of_testBit_eq
    intro i
    have hv2 : v % 2 < 2 := Nat.mod_lt _ (by norm_num)
    have hw2 : (2 * (v / 2) + (1 - v % 2)) % 2 = 1 - v % 2 := by omega
    have hwd : (2 * (v / 2) + (1 - v % 2)) / 2 = v / 2 := by omega
    rcases Nat.eq_zero_or_pos i with hi | hi
    · subst hi
      rw [Nat.testBit_xor, Nat.testBit_zero, Nat.testBit_zero, Nat.testBit_zero, hw2]
      have : v % 2 = 0 ∨ v % 2 = 1 := by omega
      rcases this with h | h <;> simp [h]
    · obtain ⟨i', rfl⟩ : ∃ i', i = i' + 1 := ⟨i - 1, by omega⟩
      rw [Nat.testBit_xor, Nat.testBit_add_one, Nat.testBit_add_one, Nat.testBit_add_one, hwd]
      norm_num
  rw [hA, hB, h1]

/-- The child windows of `(a, t+1)` are `(a, t)` and `(a ^^^ 2^t, t)`,
in one of the two orders. -/
theorem win_children (a t : ℕ) :
    (wlo (a, t) = wlo (a, t + 1) ∧ wlo (a ^^^ 2 ^ t, t) = wlo (a, t + 1) + 2 ^ t) ∨
    (wlo (a, t) = wlo (a, t + 1) + 2 ^ t ∧ wlo (a ^^^ 2 ^ t, t) = wlo (a, t + 1)) := by
  obtain ⟨bb, hbb, h1, h2⟩ := win_decomp a t
  have e1 : wlo (a, t) = 2 ^ t * (2 * (a / 2 ^ (t + 1)) + bb) := by
    unfold wlo; rw [← h1]
  have e2 : wlo (a ^^^ 2 ^ t, t) = 2 ^ t * (2 * (a / 2 ^ (t + 1)) + (1 - bb)) := by
    unfold wlo; rw [← h2]
  have e3 : wlo (a, t + 1) = 2 ^ (t + 1) * (a / 2 ^ (t + 1)) := rfl
  have e4 : (2 : ℕ) ^ (t + 1) = 2 ^ t * 2 := Nat.pow_succ ..
  interval_cases bb
  · left
    refine ⟨?_, ?_⟩
    · rw [e1, e3, e4]; ring
    · rw [e2, e3, e4]; ring
  · right
    refine ⟨?_, ?_⟩
    · rw [e1, e3, e4]; ring
    · rw [e2, e3, e4]; ring

theorem win_child_self (a t : ℕ) :
    wlo (a, t + 1) ≤ wlo (a, t) ∧ whi (a, t) ≤ whi (a, t + 1) := by
  have e4 : (2 : ℕ) ^ (t + 1) = 2 ^ t + 2 ^ t := by rw [Nat.pow_succ]; ring
  have hP : (0 : ℕ) < 2 ^ t := Nat.pos_pow_of_pos _ (by norm_num)
  rw [whi_mk, whi_mk]
  rcases win_children a t with ⟨h1, h2⟩ | ⟨h1, h2⟩ <;>
  · generalize (2 : ℕ) ^ t = P at *
    omega

theorem win_child_bud (a t : ℕ) :
    wlo (a, t + 1) ≤ wlo (a ^^^ 2 ^ t, t) ∧ whi (a ^^^ 2 ^ t, t) ≤ whi (a, t + 1) := by
  have e4 : (2 : ℕ) ^ (t + 1) = 2 ^ t + 2 ^ t := by rw [Nat.pow_succ]; ring
  have hP : (0 : ℕ) < 2 ^ t := Nat.pos_pow_of_pos _ (by norm_num)
  rw [whi_mk, whi_mk]
  rcases win_children a t with ⟨h1, h2⟩ | ⟨h1, h2⟩ <;>
  · generalize (2 : ℕ) ^ t = P at *
    omega

theorem win_nest (a : ℕ) {t u : ℕ} (h : t ≤ u) :
    wlo (a, u) ≤ wlo (a, t) ∧ whi (a, t) ≤ whi (a, u) := by
  induction u with
  | zero =>
      have h0 : t = 0 := Nat.le_zero.mp h
      subst h0
      exact ⟨Nat.le_refl _, Nat.le_refl _⟩
  | succ u ih =>
      rcases Nat.eq_or_lt_of_le h with he | hlt
      · subst he
        exact ⟨Nat.le_refl _, Nat.le_refl _⟩
      · have h1 := ih (by omega)
        have h2 := win_child_self a u
        exact ⟨Nat.le_trans h2.1 h1.1, Nat.le_trans h1.2 h2.2⟩

/-- A piece whose window is inside another's is disjoint from whatever the
larger one is disjoint from. -/
theorem wdisj_of_sub {p q r : ℕ × ℕ} (h1 : wlo q ≤ wlo p) (h2 : whi p ≤ whi q)
    (h : WDisj q r) : WDisj p r := by
  unfold WDisj at *
  omega

theorem win_child_disj (a t : ℕ) : WDisj (a, t) (a ^^^ 2 ^ t, t) := by
  unfold WDisj
  have hP : (0 : ℕ) < 2 ^ t := Nat.pos_pow_of_pos _ (by norm_num)
  rw [whi_mk, whi_mk]
  rcases win_children a t with ⟨h1, h2⟩ | ⟨h1, h2⟩ <;>
  · generalize (2 : ℕ) ^ t = P at *
    omega

/-- If `q` is disjoint from both child windows then it is disjoint from the
parent window. -/
theorem win_merge_disj {q : ℕ × ℕ} (a t : ℕ)
    (h1 : WDisj q (a, t)) (h2 : WDisj q (a ^^^ 2 ^ t, t)) : WDisj q (a, t + 1) := by
  unfold WDisj at *
  have ea : whi (a, t) = wlo (a, t) + 2 ^ t := rfl
  have eb : whi (a ^^^ 2 ^ t, t) = wlo (a ^^^ 2 ^ t, t) + 2 ^ t := rfl
  have ec : whi (a, t + 1) = wlo (a, t + 1) + 2 ^ (t + 1) := rfl
  have hwq : whi q = wlo q + 2 ^ q.2 := rfl
  have e4 : (2 : ℕ) ^ (t + 1) = 2 ^ t + 2 ^ t := by rw [Nat.pow_succ]; ring
  have hP : (0 : ℕ) < 2 ^ t := Nat.pos_pow_of_pos _ (by norm_num)
  have hq : (0 : ℕ) < 2 ^ q.2 := Nat.pos_pow_of_pos _ (by norm_num)
  rcases win_children a t with ⟨e1, e2⟩ | ⟨e1, e2⟩ <;>
  · generalize (2 : ℕ) ^ t = P at *
    generalize (2 : ℕ) ^ q.2 = R at *
    omega

/-- Disjoint pieces have distinct addresses. -/
theorem wdisj_addr_ne {p q : ℕ × ℕ} (h : WDisj p q) : p.1 ≠ q.1 := by
  intro he
  have h1 := wlo_le_self p
  have h2 := self_lt_whi p
  have h3 := wlo_le_self q
  have h4 := self_lt_whi q
  unfold WDisj at h
  generalize whi p = W1 at *
  generalize whi q = W2 at *
  omega

/-! ### levelPieces bookkeeping -/

theorem sum_map_const {α : Type} (l : List α) (c : ℕ) :
    (l.map (fun _ => c)).sum = c * l.length := by
  induction l with
  | nil => simp
  | cons x xs ih => simp [ih]; ring

theorem freeSpaceLv_eq_pieces (k : ℕ) (ls : List (List ℕ)) :
    BuddyAllocator.freeSpaceLv k ls = ((levelPieces k ls).map (fun p => 2 ^ p.2)).sum := by
  induction ls generalizing k with
  | nil => rfl
  | cons bl rest ih =>
      unfold BuddyAllocator.freeSpaceLv levelPieces
      rw [List.map_append, List.sum_append, List.map_map]
      have : ((fun p : ℕ × ℕ => 2 ^ p.2) ∘ fun a => (a, k)) = fun _ => 2 ^ k := rfl
      rw [this, sum_map_const, ih]

theorem levelPieces_classes (k : ℕ) (ls : List (List ℕ)) :
    ∀ p ∈ levelPieces k ls, k ≤ p.2 ∧ p.2 < k + ls.length := by
  induction ls generalizing k with
  | nil => simp [levelPieces]
  | cons bl rest ih =>
      intro p hp
      simp only [levelPieces] at hp
      rcases List.mem_append.mp hp with h | h
      · obtain ⟨a, _, rfl⟩ := List.mem_map.mp h
        simp
      · have := ih (k + 1) p h
        simp only [List.length_cons]
        omega

theorem getLevel_cons_zero (x : List ℕ) (ls : List (List ℕ)) :
    BuddyAllocator.getLevel (x :: ls) 0 = x := rfl

theorem getLevel_cons_succ (x : List ℕ) (ls : List (List ℕ)) (i : ℕ) :
    BuddyAllocator.getLevel (x :: ls) (i + 1) = BuddyAllocator.getLevel ls i := rfl

theorem getLevel_nil (i : ℕ) : BuddyAllocator.getLevel [] i = [] := by
  unfold BuddyAllocator.getLevel
  simp

theorem getLevel_lt_length {ls : List (List ℕ)} {i : ℕ}
    (h : BuddyAllocator.getLevel ls i ≠ []) : i < ls.length := by
  by_contra hc
  push_neg at hc
  rw [BuddyAllocator.getLevel, List.getD_eq_default] at h
  · exact h rfl
  · exact hc

theorem levelPieces_cons (k : ℕ) (bl : List ℕ) (rest : List (List ℕ)) :
    levelPieces k (bl :: rest) = bl.map (fun a => (a, k)) ++ levelPieces (k + 1) rest := rfl

theorem mem_levelPieces_of_mem {ls : List (List ℕ)} {i a : ℕ} (k : ℕ)
    (h : a ∈ BuddyAllocator.getLevel ls i) : (a, k + i) ∈ levelPieces k ls := by
  induction ls generalizing i k with
  | nil => rw [getLevel_nil] at h; simp at h
  | cons bl rest ih =>
      cases i with
      | zero =>
          rw [getLevel_cons_zero] at h
          rw [levelPieces_cons]
          exact List.mem_append.mpr (Or.inl (List.mem_map.mpr ⟨a, h, rfl⟩))
      | succ i' =>
          rw [getLevel_cons_succ] at h
          rw [levelPieces_cons]
          refine List.mem_append.mpr (Or.inr ?_)
          have hm := ih (k + 1) h
          have he : k + 1 + i' = k + (i' + 1) := by omega
          rwa [he] at hm

/-- Popping the front block of level `i`. -/
theorem levelPieces_pop {ls : List (List ℕ)} {i a : ℕ} {rest : List ℕ} (k : ℕ)
    (h : BuddyAllocator.getLevel ls i = a :: rest) :
    List.Perm (levelPieces k ls) ((a, k + i) :: levelPieces k (ls.set i rest)) := by
  induction ls generalizing i k with
  | nil => rw [getLevel_nil] at h; simp at h
  | cons bl l0 ih =>
      cases i with
      | zero =>
          rw [getLevel_cons_zero] at h
          subst h
          rw [List.set_cons_zero, levelPieces_cons, levelPieces_cons]
          simp
      | succ i' =>
          rw [getLevel_cons_succ] at h
          have hperm := ih (k + 1) h
          rw [List.set_cons_succ, levelPieces_cons, levelPieces_cons]
          refine ((List.Perm.append_left _ hperm).trans List.perm_middle).trans ?_
          rw [show k + 1 + i' = k + (i' + 1) from by omega]

/-- Pushing a block at the back of level `i`. -/
theorem levelPieces_push {ls : List (List ℕ)} {i : ℕ} (k x : ℕ) (h : i < ls.length) :
    List.Perm (levelPieces k (BuddyAllocator.pushLevel ls i x)) ((x, k + i) :: levelPieces k ls) := by
  induction ls generalizing i k with
  | nil => simp at h
  | cons bl l0 ih =>
      cases i with
      | zero =>
          unfold BuddyAllocator.pushLevel
          rw [getLevel_cons_zero, List.set_cons_zero, levelPieces_cons, levelPieces_cons]
          rw [List.map_append, List.append_assoc, Nat.add_zero]
          exact List.perm_middle
      | succ i' =>
          simp only [List.length_cons] at h
          have hperm := ih (k + 1) (show i' < l0.length from by omega)
          unfold BuddyAllocator.pushLevel at hperm ⊢
          rw [getLevel_cons_succ, List.set_cons_succ, levelPieces_cons, levelPieces_cons]
          refine ((List.Perm.append_left _ hperm).trans List.perm_middle).trans ?_
          rw [show k + 1 + i' = k + (i' + 1) from by omega]

/-- Erasing one occurrence of a block from level `i`. -/
theorem levelPieces_erase {ls : List (List ℕ)} {i b : ℕ} (k : ℕ)
    (h : b ∈ BuddyAllocator.getLevel ls i) :
    List.Perm (levelPieces k ls)
      ((b, k + i) :: levelPieces k (ls.set i ((BuddyAllocator.getLevel ls i).erase b))) := by
  induction ls generalizing i k with
  | nil => rw [getLevel_nil] at h; simp at h
  | cons bl l0 ih =>
      cases i with
      | zero =>
          rw [getLevel_cons_zero] at h ⊢
          have hperm : List.Perm bl (b :: bl.erase b) := List.perm_cons_erase h
          rw [List.set_cons_zero, levelPieces_cons, levelPieces_cons, Nat.add_zero]
          exact (List.Perm.append_right _ (hperm.map _)).trans (List.Perm.refl _)
      | succ i' =>
          rw [getLevel_cons_succ] at h ⊢
          have hperm := ih (k + 1) h
          rw [List.set_cons_succ, levelPieces_cons, levelPieces_cons]
          refine ((List.Perm.append_left _ hperm).trans List.perm_middle).trans ?_
          rw [show k + 1 + i' = k + (i' + 1) from by omega]

theorem levelPieces_new (n k : ℕ) :
    levelPieces k (List.replicate n [] ++ [[0]]) = [(0, k + n)] := by
  induction n generalizing k with
  | zero => simp [levelPieces]
  | succ n' ih =>
      rw [List.replicate_succ]
      show levelPieces k (([] : List ℕ) :: (List.replicate n' [] ++ [[0]])) = _
      unfold levelPieces
      rw [ih (k + 1)]
      simp
      omega

/-! ### Buddy invariant: helpers -/

theorem mapInsert_fresh {m : List (ℕ × ℕ × ℕ)} {k : ℕ} (v : ℕ × ℕ)
    (h : k ∉ mapKeys m) : mapInsert m k v = (k, v) :: m := by
  unfold mapInsert
  congr 1
  apply List.filter_eq_self.mpr
  intro e he
  simp
  intro hek
  exact h (List.mem_map.mpr ⟨e, he, hek⟩)

theorem upscanGo_some {ls : List (List ℕ)} {min : ℕ} :
    ∀ {fuel c c' : ℕ}, BuddyAllocator.upscanGo ls min c fuel = some c' →
      c ≤ c' ∧ c' < c + fuel ∧ BuddyAllocator.getLevel ls (c' - min) ≠ [] := by
  intro fuel
  induction fuel with
  | zero => intro c c' h; simp [BuddyAllocator.upscanGo] at h
  | succ n ih =>
      intro c c' h
      unfold BuddyAllocator.upscanGo at h
      by_cases hne : BuddyAllocator.getLevel ls (c - min) ≠ []
      · rw [if_pos hne] at h
        obtain rfl : c = c' := by simpa using h
        exact ⟨Nat.le_refl _, by omega, hne⟩
      · rw [if_neg hne] at h
        obtain ⟨h1, h2, h3⟩ := ih h
        exact ⟨by omega, by omega, h3⟩

theorem splitDown_length (a min j : ℕ) :
    ∀ (steps : ℕ) (ls : List (List ℕ)), (BuddyAllocator.splitDown a min j steps ls).length = ls.length := by
  intro steps
  induction steps with
  | zero => intro ls; rfl
  | succ n ih =>
      intro ls
      unfold BuddyAllocator.splitDown
      rw [ih]
      unfold BuddyAllocator.pushLevel
      exact List.length_set ..

theorem splitDown_pieces (a min j : ℕ) (hmin : min ≤ j) :
    ∀ (steps : ℕ) (ls : List (List ℕ)), j + steps - min ≤ ls.length →
      List.Perm (levelPieces min (BuddyAllocator.splitDown a min j steps ls))
        ((List.range steps).map (fun t => (a ^^^ 2 ^ (j + t), j + t)) ++ levelPieces min ls) := by
  intro steps
  induction steps with
  | zero => intro ls _; simp [BuddyAllocator.splitDown]
  | succ n ih =>
      intro ls hlen
      unfold BuddyAllocator.splitDown
      have hlen2 : j + n - min ≤ (BuddyAllocator.pushLevel ls (j + n - min) (a ^^^ 2 ^ (j + n))).length := by
        unfold BuddyAllocator.pushLevel
        rw [List.length_set]
        omega
      have hidx : j + n - min < ls.length := by omega
      have hperm1 := ih (BuddyAllocator.pushLevel ls (j + n - min) (a ^^^ 2 ^ (j + n))) hlen2
      have hperm2 := levelPieces_push min (a ^^^ 2 ^ (j + n)) hidx
      have hcls : min + (j + n - min) = j + n := by omega
      rw [hcls] at hperm2
      refine hperm1.trans ?_
      refine (List.Perm.append_left _ hperm2).trans ?_
      rw [List.range_succ, List.map_append]
      simp [List.append_assoc]

theorem sum_pow_range (j : ℕ) :
    ∀ steps : ℕ, (((List.range steps).map (fun t => (a ^^^ 2 ^ (j + t), j + t))).map
        (fun p : ℕ × ℕ => 2 ^ p.2)).sum + 2 ^ j = 2 ^ (j + steps) := by
  intro steps
  induction steps with
  | zero => simp
  | succ n ih =>
      rw [List.range_succ, List.map_append, List.map_append, List.sum_append]
      have e4 : (2 : ℕ) ^ (j + n + 1) = 2 ^ (j + n) + 2 ^ (j + n) := by rw [Nat.pow_succ]; ring
      simp only [List.map_cons, List.map_nil, List.sum_cons, List.sum_nil]
      have : j + (n + 1) = j + n + 1 := by omega
      rw [this, e4]
      omega

/-- The window of the buddy of `(a, u)` sits inside the window `(a, c)`
for any class `c > u`. -/
theorem bud_sub_parent (a u c : ℕ) (h : u < c) :
    wlo (a, c) ≤ wlo (a ^^^ 2 ^ u, u) ∧ whi (a ^^^ 2 ^ u, u) ≤ whi (a, c) := by
  have h1 := win_child_bud a u
  have h2 := win_nest a (t := u + 1) (u := c) (by omega)
  exact ⟨Nat.le_trans h2.1 h1.1, Nat.le_trans h1.2 h2.2⟩

theorem bud_disj_bud (a u u' : ℕ) (h : u < u') :
    WDisj (a ^^^ 2 ^ u, u) (a ^^^ 2 ^ u', u') := by
  have hsub := bud_sub_parent a u u' h
  exact wdisj_of_sub hsub.1 hsub.2 (win_child_disj a u')

theorem self_disj_bud (a j u : ℕ) (h : j ≤ u) :
    WDisj (a, j) (a ^^^ 2 ^ u, u) := by
  have hn := win_nest a (t := j) (u := u) h
  exact wdisj_of_sub hn.1 hn.2 (win_child_disj a u)

/-! ### Case analysis of BuddyAllocator.malloc -/

theorem malloc_elim (s : BuddyAllocator) (size : ℕ) :
    (s.max_size < clog2 size ∧ BuddyAllocator.malloc s size = (none, s)) ∨
    (∃ a rest,
      clog2 size ≤ s.max_size ∧
      BuddyAllocator.getLevel s.levels
        ((if clog2 size < s.min_size then s.min_size else clog2 size) - s.min_size) = a :: rest ∧
      BuddyAllocator.malloc s size =
        (some a,
         { s with
             levels := s.levels.set
               ((if clog2 size < s.min_size then s.min_size else clog2 size) - s.min_size) rest
             sizemap := mapInsert s.sizemap a
               ((if clog2 size < s.min_size then s.min_size else clog2 size),
                2 ^ (if clog2 size < s.min_size then s.min_size else clog2 size) - size) })) ∨
    (clog2 size ≤ s.max_size ∧
      BuddyAllocator.getLevel s.levels
        ((if clog2 size < s.min_size then s.min_size else clog2 size) - s.min_size) = [] ∧
      BuddyAllocator.upscan s.levels s.min_size s.max_size
        ((if clog2 size < s.min_size then s.min_size else clog2 size) + 1) = none ∧
      BuddyAllocator.malloc s size = (none, s)) ∨
    (∃ c a rest,
      clog2 size ≤ s.max_size ∧
      BuddyAllocator.getLevel s.levels
        ((if clog2 size < s.min_size then s.min_size else clog2 size) - s.min_size) = [] ∧
      BuddyAllocator.upscan s.levels s.min_size s.max_size
        ((if clog2 size < s.min_size then s.min_size else clog2 size) + 1) = some c ∧
      BuddyAllocator.getLevel s.levels (c - s.min_size) = a :: rest ∧
      BuddyAllocator.malloc s size =
        (some a,
         { s with
             levels := BuddyAllocator.splitDown a s.min_size
               (if clog2 size < s.min_size then s.min_size else clog2 size)
               (c - (if clog2 size < s.min_size then s.min_size else clog2 size))
               (s.levels.set (c - s.min_size) rest)
             sizemap := mapInsert s.sizemap a
               ((if clog2 size < s.min_size then s.min_size else clog2 size),
                2 ^ (if clog2 size < s.min_size then s.min_size else clog2 size) - size) })) := by
  by_cases h0 : s.max_size < clog2 size
  · left
    refine ⟨h0, ?_⟩
    unfold BuddyAllocator.malloc
    rw [if_pos h0]
  · have h0' : clog2 size ≤ s.max_size := by omega
    rcases hlv : BuddyAllocator.getLevel s.levels
        ((if clog2 size < s.min_size then s.min_size else clog2 size) - s.min_size) with _ | ⟨a, rest⟩
    · rcases hup : BuddyAllocator.upscan s.levels s.min_size s.max_size
          ((if clog2 size < s.min_size then s.min_size else clog2 size) + 1) with _ | c
      · right; right; left
        refine ⟨h0', rfl, rfl, ?_⟩
        unfold BuddyAllocator.malloc
        rw [if_neg h0]
        simp only [hlv, hup]
      · rcases hlv2 : BuddyAllocator.getLevel s.levels (c - s.min_size) with _ | ⟨a, rest⟩
        · exact absurd hlv2 (upscanGo_some hup).2.2
        · right; right; right
          refine ⟨c, a, rest, h0', rfl, rfl, hlv2, ?_⟩
          unfold BuddyAllocator.malloc
          rw [if_neg h0]
          simp only [hlv, hup, hlv2]
          rfl
    · right; left
      refine ⟨a, rest, h0', rfl, ?_⟩
      unfold BuddyAllocator.malloc
      rw [if_neg h0]
      simp only [hlv]

/-! ### Preservation of the buddy invariant -/

theorem pairwise_wdisj_of_perm {A B : List (ℕ × ℕ)} (h : List.Perm A B)
    (hA : A.Pairwise WDisj) : B.Pairwise WDisj :=
  (h.pairwise_iff (fun hab => wdisj_symm hab)).mp hA

/-- An address stored in a free piece cannot be a sizemap key: their windows
are disjoint and each window contains its own address. -/
theorem fresh_of_pairwise {L : List (ℕ × ℕ)} {m : List (ℕ × ℕ × ℕ)} {p : ℕ × ℕ}
    (hPW : (L ++ m.map (fun e => (e.1, e.2.1))).Pairwise WDisj) (hp : p ∈ L) :
    p.1 ∉ mapKeys m := by
  intro hk
  obtain ⟨e, he, hek⟩ := List.mem_map.mp hk
  have hcross := (List.pairwise_append.mp hPW).2.2 p hp (e.1, e.2.1)
    (List.mem_map.mpr ⟨e, he, rfl⟩)
  exact (wdisj_addr_ne hcross) (by rw [hek])

theorem invb_new (min max : ℕ) (h : min ≤ max) : INVb (BuddyAllocator.new min max) := by
  unfold INVb BuddyAllocator.new bPieces
  simp only
  rw [levelPieces_new]
  have he : min + (max - min) = max := by omega
  rw [he]
  refine ⟨h, by simp; omega, ?_, ?_, ?_, by simp [mapKeys]⟩
  · intro p hp
    simp at hp
    subst hp
    exact ⟨h, Nat.le_refl _, Nat.pos_pow_of_pos _ (by norm_num)⟩
  · simp
  · simp

theorem invb_malloc (s : BuddyAllocator) (size : ℕ) (h : INVb s) :
    INVb (BuddyAllocator.malloc s size).2 := by
  obtain ⟨hminmax, hlen, hOK, hPW, hsum, hnd⟩ := h
  rcases malloc_elim s size with ⟨_, heq⟩ | ⟨a, rest, h0, hlv, heq⟩ |
    ⟨_, _, _, heq⟩ | ⟨c, a, rest, h0, hlv0, hup, hlv2, heq⟩
  · rw [heq]; exact ⟨hminmax, hlen, hOK, hPW, hsum, hnd⟩
  · -- pop branch
    rw [heq]
    set j := if clog2 size < s.min_size then s.min_size else clog2 size with hjdef
    have hj1 : s.min_size ≤ j := by rw [hjdef]; split <;> omega
    have hj2 : j ≤ s.max_size := by rw [hjdef]; split <;> omega
    have hji : s.min_size + (j - s.min_size) = j := by omega
    have hpop := levelPieces_pop (k := s.min_size) hlv
    rw [hji] at hpop
    have hmemL : (a, j) ∈ levelPieces s.min_size s.levels := by
      have hm := mem_levelPieces_of_mem (k := s.min_size) (i := j - s.min_size) (a := a)
        (by rw [hlv]; exact List.mem_cons_self a rest)
      rwa [hji] at hm
    have hfresh : a ∉ mapKeys s.sizemap := fresh_of_pairwise hPW hmemL
    have hins := mapInsert_fresh (m := s.sizemap) (j, 2 ^ j - size) hfresh
    have hpermA : List.Perm (bPieces s)
        (levelPieces s.min_size (s.levels.set (j - s.min_size) rest) ++
          ((a, j) :: s.sizemap.map (fun e => (e.1, e.2.1)))) := by
      unfold bPieces
      exact (List.Perm.append_right _ hpop).trans List.perm_middle.symm
    have hA' : bPieces { s with
        levels := s.levels.set (j - s.min_size) rest
        sizemap := mapInsert s.sizemap a (j, 2 ^ j - size) } =
        levelPieces s.min_size (s.levels.set (j - s.min_size) rest) ++
          ((a, j) :: s.sizemap.map (fun e => (e.1, e.2.1))) := by
      unfold bPieces
      rw [hins]
      rfl
    refine ⟨hminmax, by simp [hlen], ?_, ?_, ?_, ?_⟩
    · rw [hA']
      intro p hp
      exact hOK p ((hpermA.mem_iff).mpr hp)
    · rw [hA']
      exact pairwise_wdisj_of_perm hpermA hPW
    · rw [hA']
      rw [← (hpermA.map (fun p => 2 ^ p.2)).sum_eq]
      exact hsum
    · exact mapKeys_insert_nodup _ _ hnd
  · rw [heq]; exact ⟨hminmax, hlen, hOK, hPW, hsum, hnd⟩
  · -- split branch
    rw [heq]
    set j := if clog2 size < s.min_size then s.min_size else clog2 size with hjdef
    have hj1 : s.min_size ≤ j := by rw [hjdef]; split <;> omega
    obtain ⟨hc1, hc2, _⟩ := upscanGo_some hup
    have hjc : j < c := by omega
    have hc3 : c ≤ s.max_size := by omega
    have hji : s.min_size + (c - s.min_size) = c := by omega
    have hpop := levelPieces_pop (k := s.min_size) hlv2
    rw [hji] at hpop
    have hmemL : (a, c) ∈ levelPieces s.min_size s.levels := by
      have hm := mem_levelPieces_of_mem (k := s.min_size) (i := c - s.min_size) (a := a)
        (by rw [hlv2]; exact List.mem_cons_self a rest)
      rwa [hji] at hm
    have hfresh : a ∉ mapKeys s.sizemap := fresh_of_pairwise hPW hmemL
    have hins := mapInsert_fresh (m := s.sizemap) (j, 2 ^ j - size) hfresh
    have hsplit := splitDown_pieces a s.min_size j hj1 (c - j)
      (s.levels.set (c - s.min_size) rest)
      (by rw [List.length_set, hlen]; omega)
    -- names for the three blocks
    set L1 := levelPieces s.min_size (s.levels.set (c - s.min_size) rest) with hL1
    set G := s.sizemap.map (fun e => (e.1, e.2.1)) with hG
    set buds := (List.range (c - j)).map (fun t => (a ^^^ 2 ^ (j + t), j + t)) with hbuds
    have hjcj : j + (c - j) = c := by omega
    -- the old pieces, reorganised
    have hpermOld : List.Perm (bPieces s) ((a, c) :: (L1 ++ G)) := by
      unfold bPieces
      exact List.Perm.append_right G hpop
    have hPWold : ((a, c) :: (L1 ++ G)).Pairwise WDisj := pairwise_wdisj_of_perm hpermOld hPW
    have hOKold : ∀ p ∈ (a, c) :: (L1 ++ G), pieceOK s.min_size s.max_size p := by
      intro p hp
      exact hOK p (hpermOld.mem_iff.mpr hp)
    have hheadOld : ∀ q ∈ L1 ++ G, WDisj (a, c) q := (List.pairwise_cons.mp hPWold).1
    have htailOld : (L1 ++ G).Pairwise WDisj := (List.pairwise_cons.mp hPWold).2
    have hOKac : pieceOK s.min_size s.max_size (a, c) := hOKold _ (List.mem_cons_self _ _)
    -- the new pieces, reorganised
    have hpermNew : List.Perm
        (levelPieces s.min_size (BuddyAllocator.splitDown a s.min_size j (c - j)
          (s.levels.set (c - s.min_size) rest)) ++
          ((a, j) :: s.sizemap.map (fun e => (e.1, e.2.1))))
        ((a, j) :: (buds ++ (L1 ++ G))) := by
      refine (List.Perm.append hsplit (List.Perm.refl ((a, j) :: G))).trans ?_
      have hmid : List.Perm ((buds ++ L1) ++ ((a, j) :: G)) ((a, j) :: ((buds ++ L1) ++ G)) :=
        List.perm_middle
      refine hmid.trans ?_
      rw [List.append_assoc]
    have hA' : bPieces { s with
        levels := BuddyAllocator.splitDown a s.min_size j (c - j)
          (s.levels.set (c - s.min_size) rest)
        sizemap := mapInsert s.sizemap a (j, 2 ^ j - size) } =
        levelPieces s.min_size (BuddyAllocator.splitDown a s.min_size j (c - j)
          (s.levels.set (c - s.min_size) rest)) ++
          ((a, j) :: s.sizemap.map (fun e => (e.1, e.2.1))) := by
      unfold bPieces
      rw [hins]
      rfl
    -- membership shape of buds
    have hbud_mem : ∀ q ∈ buds, ∃ t, t < c - j ∧ q = (a ^^^ 2 ^ (j + t), j + t) := by
      intro q hq
      rw [hbuds] at hq
      obtain ⟨t, ht, rfl⟩ := List.mem_map.mp hq
      exact ⟨t, List.mem_range.mp ht, rfl⟩
    -- each bud's window is inside the window of (a, c)
    have hbud_sub : ∀ q ∈ buds, wlo (a, c) ≤ wlo q ∧ whi q ≤ whi (a, c) := by
      intro q hq
      obtain ⟨t, ht, rfl⟩ := hbud_mem q hq
      exact bud_sub_parent a (j + t) c (by omega)
    have hPWnew : ((a, j) :: (buds ++ (L1 ++ G))).Pairwise WDisj := by
      refine List.pairwise_cons.mpr ⟨?_, ?_⟩
      · intro q hq
        rcases List.mem_append.mp hq with hq | hq
        · obtain ⟨t, ht, rfl⟩ := hbud_mem q hq
          exact self_disj_bud a j (j + t) (by omega)
        · have hn := win_nest a (t := j) (u := c) (by omega)
          exact wdisj_of_sub hn.1 hn.2 (hheadOld q hq)
      · refine List.pairwise_append.mpr ⟨?_, htailOld, ?_⟩
        · rw [hbuds]
          refine List.Pairwise.map _ ?_ (List.pairwise_lt_range (c - j))
          intro t t' htt'
          exact bud_disj_bud a (j + t) (j + t') (by omega)
        · intro q hq r hr
          have hs := hbud_sub q hq
          exact wdisj_of_sub hs.1 hs.2 (hheadOld r hr)
    have hOKnew : ∀ p ∈ (a, j) :: (buds ++ (L1 ++ G)), pieceOK s.min_size s.max_size p := by
      intro p hp
      rcases List.mem_cons.mp hp with rfl | hp
      · exact ⟨hj1, by omega, hOKac.2.2⟩
      · rcases List.mem_append.mp hp with hp | hp
        · obtain ⟨t, ht, rfl⟩ := hbud_mem p hp
          refine ⟨by omega, by omega, ?_⟩
          have hhi : whi (a ^^^ 2 ^ (j + t), j + t) ≤ 2 ^ s.max_size :=
            Nat.le_trans (hbud_sub _ hp).2 (whi_le_pow hOKac.2.1 hOKac.2.2)
          exact Nat.lt_of_lt_of_le (self_lt_whi _) hhi
        · exact hOKold p (List.mem_cons_of_mem _ hp)
    have hsumnew :
        (((a, j) :: (buds ++ (L1 ++ G))).map (fun p => 2 ^ p.2)).sum =
          (((a, c) :: (L1 ++ G)).map (fun p => 2 ^ p.2)).sum := by
      simp only [List.map_cons, List.sum_cons, List.map_append, List.sum_append]
      have hgeo := sum_pow_range (a := a) j (c - j)
      rw [hjcj] at hgeo
      rw [hbuds]
      omega
    refine ⟨hminmax, ?_, ?_, ?_, ?_, ?_⟩
    · simp only [splitDown_length, List.length_set]
      exact hlen
    · rw [hA']
      intro p hp
      exact hOKnew p (hpermNew.mem_iff.mp hp)
    · rw [hA']
      exact pairwise_wdisj_of_perm hpermNew.symm hPWnew
    · rw [hA']
      rw [(hpermNew.map (fun p => 2 ^ p.2)).sum_eq, hsumnew,
        ← (hpermOld.map (fun p => 2 ^ p.2)).sum_eq]
      exact hsum
    · exact mapKeys_insert_nodup _ _ hnd

/-! ### The free/merge loop preserves the invariant -/

theorem freeLoopGo_succ (ptr min c fuel : ℕ) (ls : List (List ℕ)) :
    BuddyAllocator.freeLoopGo ptr min c (fuel + 1) ls =
      if (ptr ^^^ 2 ^ c) ∈ BuddyAllocator.getLevel ls (c - min) then
        BuddyAllocator.freeLoopGo ptr min (c + 1) fuel
          (ls.set (c - min) ((BuddyAllocator.getLevel ls (c - min)).erase (ptr ^^^ 2 ^ c)))
      else BuddyAllocator.pushLevel ls (c - min) ptr := rfl

theorem freeLoopGo_inv (ptr min max : ℕ) (G : List (ℕ × ℕ)) :
    ∀ (fuel c : ℕ) (ls : List (List ℕ)),
      c + fuel = max + 1 →
      min ≤ c →
      ls.length = max + 1 - min →
      ptr < 2 ^ max →
      (∀ p ∈ (ptr, c) :: (levelPieces min ls ++ G), pieceOK min max p) →
      ((ptr, c) :: (levelPieces min ls ++ G)).Pairwise WDisj →
      ((BuddyAllocator.freeLoopGo ptr min c fuel ls).length = max + 1 - min ∧
       (∀ p ∈ levelPieces min (BuddyAllocator.freeLoopGo ptr min c fuel ls) ++ G,
          pieceOK min max p) ∧
       (levelPieces min (BuddyAllocator.freeLoopGo ptr min c fuel ls) ++ G).Pairwise WDisj ∧
       ((levelPieces min (BuddyAllocator.freeLoopGo ptr min c fuel ls) ++ G).map
          (fun p => 2 ^ p.2)).sum
         = (((ptr, c) :: (levelPieces min ls ++ G)).map (fun p => 2 ^ p.2)).sum) := by
  intro fuel
  induction fuel with
  | zero =>
      intro c ls hfuel _ _ _ hOK _
      have hc := (hOK (ptr, c) (List.mem_cons_self _ _)).2.1
      omega
  | succ n ih =>
      intro c ls hfuel hminc hlen hptr hOK hPW
      have hc : c ≤ max := by omega
      have hidx : c - min < ls.length := by omega
      by_cases hbud : (ptr ^^^ 2 ^ c) ∈ BuddyAllocator.getLevel ls (c - min)
      · -- buddy found: remove it and carry the merged block up
        have hcmem : ((ptr ^^^ 2 ^ c), c) ∈ levelPieces min ls := by
          have hm := mem_levelPieces_of_mem (k := min) hbud
          rwa [show min + (c - min) = c from by omega] at hm
        -- a block cannot sit at class max while the buddy XOR flips bit max
        have hclt : c < max := by
          rcases Nat.lt_or_ge c max with h | h
          · exact h
          · exfalso
            have hceq : c = max := by omega
            subst hceq
            have hbudlt : (ptr ^^^ 2 ^ c) < 2 ^ c :=
              (hOK _ (List.mem_cons_of_mem _ (List.mem_append.mpr (Or.inl hcmem)))).2.2
            have hbit : (ptr ^^^ 2 ^ c).testBit c = true := by
              rw [Nat.testBit_xor, Nat.testBit_lt_two_pow hptr, Nat.testBit_two_pow_self]
              rfl
            rw [Nat.testBit_lt_two_pow hbudlt] at hbit
            exact Bool.false_ne_true hbit
        have hloop : BuddyAllocator.freeLoopGo ptr min c (n + 1) ls =
            BuddyAllocator.freeLoopGo ptr min (c + 1) n
              (ls.set (c - min) ((BuddyAllocator.getLevel ls (c - min)).erase (ptr ^^^ 2 ^ c))) := by
          rw [freeLoopGo_succ, if_pos hbud]
        rw [hloop]
        set ls2 := ls.set (c - min) ((BuddyAllocator.getLevel ls (c - min)).erase (ptr ^^^ 2 ^ c))
          with hls2
        have herase := levelPieces_erase (k := min) hbud
        rw [show min + (c - min) = c from by omega] at herase
        -- old carried list is permuted to (ptr,c) :: (bud,c) :: (pieces ls2 ++ G)
        have hperm1 : List.Perm ((ptr, c) :: (levelPieces min ls ++ G))
            ((ptr, c) :: ((ptr ^^^ 2 ^ c, c) :: (levelPieces min ls2 ++ G))) := by
          refine List.Perm.cons _ ?_
          exact (List.Perm.append_right G herase).trans (List.Perm.refl _)
        have hPW1 := pairwise_wdisj_of_perm hperm1 hPW
        have hOK1 : ∀ p ∈ (ptr, c) :: ((ptr ^^^ 2 ^ c, c) :: (levelPieces min ls2 ++ G)),
            pieceOK min max p := by
          intro p hp
          exact hOK p (hperm1.mem_iff.mpr hp)
        have hPWhead := List.pairwise_cons.mp hPW1
        have hPWhead2 := List.pairwise_cons.mp hPWhead.2
        -- the merged carried block (ptr, c+1) is disjoint from the rest
        have hPWnew : ((ptr, c + 1) :: (levelPieces min ls2 ++ G)).Pairwise WDisj := by
          refine List.pairwise_cons.mpr ⟨?_, hPWhead2.2⟩
          intro q hq
          have h1 : WDisj q (ptr, c) := wdisj_symm (hPWhead.1 q (List.mem_cons_of_mem _ hq))
          have h2 : WDisj q (ptr ^^^ 2 ^ c, c) := wdisj_symm (hPWhead2.1 q hq)
          exact wdisj_symm (win_merge_disj ptr c h1 h2)
        have hOKnew : ∀ p ∈ (ptr, c + 1) :: (levelPieces min ls2 ++ G),
            pieceOK min max p := by
          intro p hp
          rcases List.mem_cons.mp hp with rfl | hp
          · exact ⟨by omega, by omega, hptr⟩
          · exact hOK1 p (List.mem_cons_of_mem _ (List.mem_cons_of_mem _ hp))
        have hres := ih (c + 1) ls2 (by omega) (by omega)
          (by rw [hls2, List.length_set]; exact hlen) hptr hOKnew hPWnew
        refine ⟨hres.1, hres.2.1, hres.2.2.1, ?_⟩
        rw [hres.2.2.2]
        -- sums: 2^(c+1) = 2^c + 2^c
        have hs1 := (hperm1.map (fun p => 2 ^ p.2)).sum_eq
        simp only [List.map_cons, List.sum_cons] at hs1 ⊢
        have e4 : (2 : ℕ) ^ (c + 1) = 2 ^ c + 2 ^ c := by rw [Nat.pow_succ]; ring
        omega
      · -- buddy not found: insert the carried block here and stop
        have hloop : BuddyAllocator.freeLoopGo ptr min c (n + 1) ls =
            BuddyAllocator.pushLevel ls (c - min) ptr := by
          rw [freeLoopGo_succ, if_neg hbud]
        rw [hloop]
        have hpush := levelPieces_push min ptr hidx
        rw [show min + (c - min) = c from by omega] at hpush
        have hperm2 : List.Perm
            (levelPieces min (BuddyAllocator.pushLevel ls (c - min) ptr) ++ G)
            ((ptr, c) :: (levelPieces min ls ++ G)) := by
          exact (List.Perm.append_right G hpush).trans (List.Perm.refl _)
        refine ⟨?_, ?_, ?_, ?_⟩
        · unfold BuddyAllocator.pushLevel
          rw [List.length_set]
          exact hlen
        · intro p hp
          exact hOK p (hperm2.mem_iff.mp hp)
        · exact pairwise_wdisj_of_perm hperm2.symm hPW
        · exact (hperm2.map (fun p => 2 ^ p.2)).sum_eq

/-! ### Case analysis of BuddyAllocator.free and invariant preservation -/

theorem free_elim (s : BuddyAllocator) (ptr : ℕ) :
    (mapLookup s.sizemap ptr = none ∧
      BuddyAllocator.free s ptr = Except.error "pointer not found") ∨
    (∃ c d, mapLookup s.sizemap ptr = some (c, d) ∧
      BuddyAllocator.free s ptr = Except.ok
        { s with sizemap := mapErase s.sizemap ptr
                 levels := BuddyAllocator.freeLoop ptr s.min_size s.max_size c s.levels }) := by
  rcases hl : mapLookup s.sizemap ptr with _ | ⟨c, d⟩
  · left
    refine ⟨rfl, ?_⟩
    unfold BuddyAllocator.free
    rw [hl]
  · right
    refine ⟨c, d, rfl, ?_⟩
    unfold BuddyAllocator.free
    rw [hl]

theorem freeSt_elim (s : BuddyAllocator) (ptr : ℕ) :
    (mapLookup s.sizemap ptr = none ∧ BuddyAllocator.freeSt s ptr = s) ∨
    (∃ c d, mapLookup s.sizemap ptr = some (c, d) ∧
      BuddyAllocator.freeSt s ptr =
        { s with sizemap := mapErase s.sizemap ptr
                 levels := BuddyAllocator.freeLoop ptr s.min_size s.max_size c s.levels }) := by
  rcases free_elim s ptr with ⟨hl, heq⟩ | ⟨c, d, hl, heq⟩
  · left
    exact ⟨hl, by unfold BuddyAllocator.freeSt; rw [heq]⟩
  · right
    exact ⟨c, d, hl, by unfold BuddyAllocator.freeSt; rw [heq]⟩

theorem invb_free (s : BuddyAllocator) (ptr : ℕ) (h : INVb s) :
    INVb (BuddyAllocator.freeSt s ptr) := by
  obtain ⟨hminmax, hlen, hOK, hPW, hsum, hnd⟩ := h
  rcases freeSt_elim s ptr with ⟨_, heq⟩ | ⟨c, d, hl, heq⟩
  · rw [heq]; exact ⟨hminmax, hlen, hOK, hPW, hsum, hnd⟩
  · rw [heq]
    -- the granted entry being freed
    have hperm0 : List.Perm s.sizemap ((ptr, (c, d)) :: mapErase s.sizemap ptr) :=
      perm_cons_erase_of_lookup hnd hl
    set G' := (mapErase s.sizemap ptr).map (fun e => (e.1, e.2.1)) with hG'
    have hpermG : List.Perm (s.sizemap.map (fun e => (e.1, e.2.1))) ((ptr, c) :: G') :=
      hperm0.map _
    have hpermA : List.Perm (bPieces s)
        ((ptr, c) :: (levelPieces s.min_size s.levels ++ G')) := by
      unfold bPieces
      exact (List.Perm.append_left _ hpermG).trans List.perm_middle
    have hOK1 : ∀ p ∈ (ptr, c) :: (levelPieces s.min_size s.levels ++ G'),
        pieceOK s.min_size s.max_size p := by
      intro p hp
      exact hOK p (hpermA.mem_iff.mpr hp)
    have hPW1 := pairwise_wdisj_of_perm hpermA hPW
    have hOKptr := hOK1 (ptr, c) (List.mem_cons_self _ _)
    have hc1 : s.min_size ≤ c := hOKptr.1
    have hc2 : c ≤ s.max_size := hOKptr.2.1
    have hc3 : ptr < 2 ^ s.max_size := hOKptr.2.2
    have hres := freeLoopGo_inv ptr s.min_size s.max_size G'
      (s.max_size + 1 - c) c s.levels (by omega) hc1 hlen hc3 hOK1 hPW1
    have hfl : BuddyAllocator.freeLoop ptr s.min_size s.max_size c s.levels =
        BuddyAllocator.freeLoopGo ptr s.min_size c (s.max_size + 1 - c) s.levels := rfl
    refine ⟨hminmax, by rw [hfl]; exact hres.1, ?_, ?_, ?_, mapKeys_erase_nodup _ hnd⟩
    · intro p hp
      refine hres.2.1 p ?_
      unfold bPieces at hp
      rw [hfl] at hp
      exact hp
    · have := hres.2.2.1
      unfold bPieces
      rw [hfl]
      exact this
    · unfold bPieces
      rw [hfl, hres.2.2.2, ← (hpermA.map (fun p => 2 ^ p.2)).sum_eq]
      exact hsum

/-! ### Reachable buddy states satisfy the invariant; conservation -/

theorem reachB_inv {s : BuddyAllocator} (h : ReachB s) : INVb s := by
  induction h with
  | init min max h => exact invb_new min max h
  | malloc size _ hpos ih => exact invb_malloc _ size ih
  | free ptr _ ih => exact invb_free _ ptr ih

theorem conservation_of_invb {s : BuddyAllocator} (h : INVb s) :
    BuddyAllocator.free_space s + BuddyAllocator.grantedSum s = 2 ^ s.max_size := by
  obtain ⟨_, _, _, _, hsum, _⟩ := h
  unfold bPieces at hsum
  rw [List.map_append, List.sum_append] at hsum
  have h1 : BuddyAllocator.free_space s =
      ((levelPieces s.min_size s.levels).map (fun p => 2 ^ p.2)).sum :=
    freeSpaceLv_eq_pieces s.min_size s.levels
  have h2 : BuddyAllocator.grantedSum s =
      ((s.sizemap.map (fun e => (e.1, e.2.1))).map (fun p => 2 ^ p.2)).sum := by
    unfold BuddyAllocator.grantedSum
    rw [List.map_map]
    rfl
  rw [h1, h2]
  exact hsum

/-! ### Characterisation of FreeList.best and FreeList.first -/

theorem bestGo_none (size : ℕ) :
    ∀ (l : List FreeNode) (i0 bs : ℕ) (idx : Option ℕ),
      FreeList.bestGo size l i0 bs idx = none →
      idx = none ∧ ∀ n ∈ l, ¬(size ≤ n.size ∧ n.size ≤ bs) := by
  intro l
  induction l with
  | nil =>
      intro i0 bs idx h
      exact ⟨h, by simp⟩
  | cons n rest ih =>
      intro i0 bs idx h
      unfold FreeList.bestGo at h
      by_cases hn : size ≤ n.size ∧ n.size ≤ bs
      · rw [if_pos hn] at h
        obtain ⟨habs, _⟩ := ih (i0 + 1) n.size (some i0) h
        simp at habs
      · rw [if_neg hn] at h
        obtain ⟨h1, h2⟩ := ih (i0 + 1) bs idx h
        refine ⟨h1, ?_⟩
        intro m hm
        rcases List.mem_cons.mp hm with rfl | hm
        · exact hn
        · exact h2 m hm

theorem bestGo_some (size : ℕ) :
    ∀ (l : List FreeNode) (i0 bs : ℕ) (idx : Option ℕ) (k : ℕ),
      (∀ j, idx = some j → j < i0) →
      FreeList.bestGo size l i0 bs idx = some k →
      (k < i0 ∧ idx = some k ∧ ∀ n ∈ l, ¬(size ≤ n.size ∧ n.size ≤ bs)) ∨
      (∃ d nd, l.get? d = some nd ∧ k = i0 + d ∧ size ≤ nd.size ∧ nd.size ≤ bs ∧
        (∀ e ne, l.get? e = some ne → size ≤ ne.size → ne.size ≤ bs → nd.size ≤ ne.size) ∧
        (∀ e ne, l.get? e = some ne → d < e → size ≤ ne.size → ne.size ≤ bs →
          nd.size < ne.size)) := by
  intro l
  induction l with
  | nil =>
      intro i0 bs idx k hidx h
      left
      unfold FreeList.bestGo at h
      exact ⟨hidx k h, h, by simp⟩
  | cons n rest ih =>
      intro i0 bs idx k hidx h
      unfold FreeList.bestGo at h
      by_cases hn : size ≤ n.size ∧ n.size ≤ bs
      · rw [if_pos hn] at h
        rcases ih (i0 + 1) n.size (some i0) k (by intro j hj; simp at hj; omega) h with
          ⟨hk, hkeq, hall⟩ | ⟨d, nd, hget, hkeq, h1, h2, hmin, hlast⟩
        · -- the head stayed the best: d = 0
          right
          obtain rfl : k = i0 := by
            have := hkeq
            simp at this
            omega
          refine ⟨0, n, rfl, by omega, hn.1, hn.2, ?_, ?_⟩
          · intro e ne hget hsz hbs
            cases e with
            | zero =>
                rw [List.get?_cons_zero] at hget
                obtain rfl := Option.some.inj hget
                exact Nat.le_refl _
            | succ e' =>
                rw [List.get?_cons_succ] at hget
                by_cases hne : ne.size ≤ n.size
                · exact absurd ⟨hsz, hne⟩ (hall ne (List.get?_mem hget))
                · omega
          · intro e ne hget he hsz hbs
            cases e with
            | zero => omega
            | succ e' =>
                rw [List.get?_cons_succ] at hget
                by_cases hne : ne.size ≤ n.size
                · exact absurd ⟨hsz, hne⟩ (hall ne (List.get?_mem hget))
                · omega
        · -- the best is in the tail
          right
          refine ⟨d + 1, nd, by rw [List.get?_cons_succ]; exact hget, by omega, h1,
            Nat.le_trans h2 hn.2, ?_, ?_⟩
          · intro e ne hget2 hsz hbs
            cases e with
            | zero =>
                rw [List.get?_cons_zero] at hget2
                obtain rfl := Option.some.inj hget2
                exact h2
            | succ e' =>
                rw [List.get?_cons_succ] at hget2
                by_cases hne : ne.size ≤ n.size
                · exact hmin e' ne hget2 hsz hne
                · calc nd.size ≤ n.size := h2
                    _ ≤ ne.size := by omega
          · intro e ne hget2 he hsz hbs
            cases e with
            | zero => omega
            | succ e' =>
                rw [List.get?_cons_succ] at hget2
                by_cases hne : ne.size ≤ n.size
                · exact hlast e' ne hget2 (by omega) hsz hne
                · calc nd.size ≤ n.size := h2
                    _ < ne.size := by omega
      · rw [if_neg hn] at h
        rcases ih (i0 + 1) bs idx k (by intro j hj; exact Nat.lt_succ_of_lt (hidx j hj)) h with
          ⟨hk, hkeq, hall⟩ | ⟨d, nd, hget, hkeq, h1, h2, hmin, hlast⟩
        · by_cases hki : k < i0
          · left
            refine ⟨hki, hkeq, ?_⟩
            intro m hm
            rcases List.mem_cons.mp hm with rfl | hm
            · exact hn
            · exact hall m hm
          · -- idx = some k with k < i0 + 1 and ¬ k < i0 is impossible unless from hidx
            have := hidx k hkeq
            omega
        · right
          refine ⟨d + 1, nd, by rw [List.get?_cons_succ]; exact hget, by omega, h1, h2, ?_, ?_⟩
          · intro e ne hget2 hsz hbs
            cases e with
            | zero =>
                rw [List.get?_cons_zero] at hget2
                obtain rfl := Option.some.inj hget2
                exact absurd ⟨hsz, hbs⟩ hn
            | succ e' =>
                rw [List.get?_cons_succ] at hget2
                exact hmin e' ne hget2 hsz hbs
          · intro e ne hget2 he hsz hbs
            cases e with
            | zero => omega
            | succ e' =>
                rw [List.get?_cons_succ] at hget2
                exact hlast e' ne hget2 (by omega) hsz hbs

theorem firstGo_none (size : ℕ) :
    ∀ (l : List FreeNode) (i0 : ℕ), FreeList.firstGo size l i0 = none →
      ∀ n ∈ l, ¬(size ≤ n.size) := by
  intro l
  induction l with
  | nil => intro i0 _; simp
  | cons n rest ih =>
      intro i0 h
      unfold FreeList.firstGo at h
      by_cases hn : size ≤ n.size
      · rw [if_pos hn] at h; simp at h
      · rw [if_neg hn] at h
        intro m hm
        rcases List.mem_cons.mp hm with rfl | hm
        · exact hn
        · exact ih (i0 + 1) h m hm

theorem firstGo_some (size : ℕ) :
    ∀ (l : List FreeNode) (i0 k : ℕ), FreeList.firstGo size l i0 = some k →
      ∃ d nd, l.get? d = some nd ∧ k = i0 + d ∧ size ≤ nd.size := by
  intro l
  induction l with
  | nil => intro i0 k h; simp [FreeList.firstGo] at h
  | cons n rest ih =>
      intro i0 k h
      unfold FreeList.firstGo at h
      by_cases hn : size ≤ n.size
      · rw [if_pos hn] at h
        simp at h
        exact ⟨0, n, rfl, by omega, hn⟩
      · rw [if_neg hn] at h
        obtain ⟨d, nd, hget, hk, hsz⟩ := ih (i0 + 1) k h
        exact ⟨d + 1, nd, by rw [List.get?_cons_succ]; exact hget, by omega, hsz⟩

/-! ### Case analysis of FreeList.malloc -/

theorem alignUp_fst (al size : ℕ) :
    (FreeList.alignUp al size).1 = size + (FreeList.alignUp al size).2 := by
  simp only [FreeList.alignUp]
  split
  · split <;> simp
  · simp

theorem alignUp_le (al size : ℕ) : size ≤ (FreeList.alignUp al size).1 := by
  rw [alignUp_fst]
  omega

theorem alignUp_id {al : ℕ} (size : ℕ) (h : al ≤ 1) :
    FreeList.alignUp al size = (size, 0) := by
  unfold FreeList.alignUp
  rw [if_neg (by omega)]

theorem best_some_node (s : FreeList) (size i : ℕ) (h : FreeList.best s size = some i) :
    ∃ node, s.freelist.get? i = some node ∧ size ≤ node.size := by
  unfold FreeList.best at h
  rcases bestGo_some size s.freelist 0 s.max_size none i (by simp) h with
    ⟨_, habs, _⟩ | ⟨d, nd, hget, hk, h1, _, _, _⟩
  · simp at habs
  · exact ⟨nd, by rw [hk]; simpa using hget, h1⟩

theorem first_some_node (s : FreeList) (size i : ℕ) (h : FreeList.first s size = some i) :
    ∃ node, s.freelist.get? i = some node ∧ size ≤ node.size := by
  unfold FreeList.first at h
  obtain ⟨d, nd, hget, hk, h1⟩ := firstGo_some size s.freelist 0 i h
  exact ⟨nd, by rw [hk]; simpa using hget, h1⟩

/-- The selected index, uniformly over the two policies. -/
theorem select_some_node (s : FreeList) (size : ℕ) (i : ℕ)
    (h : (match s.policy with
          | Policy.Best => FreeList.best s size
          | Policy.First => FreeList.first s size) = some i) :
    ∃ node, s.freelist.get? i = some node ∧ size ≤ node.size := by
  rcases hp : s.policy with _ | _ <;> rw [hp] at h
  · exact best_some_node s size i h
  · exact first_some_node s size i h

theorem fmalloc_elim (s : FreeList) (size0 : ℕ) :
    ((match s.policy with
      | Policy.Best => FreeList.best s (FreeList.alignUp s.align size0).1
      | Policy.First => FreeList.first s (FreeList.alignUp s.align size0).1) = none ∧
      FreeList.malloc s size0 = (none, s)) ∨
    (∃ i node,
      (match s.policy with
       | Policy.Best => FreeList.best s (FreeList.alignUp s.align size0).1
       | Policy.First => FreeList.first s (FreeList.alignUp s.align size0).1) = some i ∧
      s.freelist.get? i = some node ∧
      (FreeList.alignUp s.align size0).1 ≤ node.size ∧
      ((FreeList.alignUp s.align size0).1 = node.size ∧
        FreeList.malloc s size0 =
          (some node.addr,
           { s with freelist := s.freelist.eraseIdx i
                    sizemap := mapInsert s.sizemap node.addr (FreeList.alignUp s.align size0) }) ∨
       (FreeList.alignUp s.align size0).1 < node.size ∧
        FreeList.malloc s size0 =
          (some node.addr,
           { s with
               freelist := s.freelist.set i
                 ⟨node.addr + (FreeList.alignUp s.align size0).1,
                  node.size - (FreeList.alignUp s.align size0).1⟩
               sizemap := mapInsert s.sizemap node.addr (FreeList.alignUp s.align size0) }))) := by
  have hbody : FreeList.malloc s size0 =
      match (match s.policy with
             | Policy.Best => FreeList.best s (FreeList.alignUp s.align size0).1
             | Policy.First => FreeList.first s (FreeList.alignUp s.align size0).1) with
      | none => (none, s)
      | some i =>
          let node := s.freelist.getD i ⟨0, 0⟩
          if (FreeList.alignUp s.align size0).1 = node.size then
            (some node.addr,
             { s with freelist := s.freelist.eraseIdx i
                      sizemap := mapInsert s.sizemap node.addr (FreeList.alignUp s.align size0) })
          else if (FreeList.alignUp s.align size0).1 < node.size then
            (some node.addr,
             { s with
                 freelist := s.freelist.set i
                   ⟨node.addr + (FreeList.alignUp s.align size0).1,
                    node.size - (FreeList.alignUp s.align size0).1⟩
                 sizemap := mapInsert s.sizemap node.addr (FreeList.alignUp s.align size0) })
          else (none, s) := by
    unfold FreeList.malloc
    rfl
  rcases hsel : (match s.policy with
      | Policy.Best => FreeList.best s (FreeList.alignUp s.align size0).1
      | Policy.First => FreeList.first s (FreeList.alignUp s.align size0).1) with _ | i
  · left
    refine ⟨hsel, ?_⟩
    rw [hbody, hsel]
  · obtain ⟨node, hget, hsz⟩ := select_some_node s _ i hsel
    right
    have hnode : s.freelist.getD i ⟨0, 0⟩ = node := by
      rw [List.getD_eq_get?, hget]
      rfl
    refine ⟨i, node, hsel, hget, hsz, ?_⟩
    rcases Nat.eq_or_lt_of_le hsz with he | hlt
    · left
      refine ⟨he, ?_⟩
      rw [hbody, hsel]
      simp only [hnode, if_pos he]
    · right
      refine ⟨hlt, ?_⟩
      rw [hbody, hsel]
      simp only [hnode,
        if_neg (by omega : ¬(FreeList.alignUp s.align size0).1 = node.size), if_pos hlt]

/-! ### Case analysis of FreeList.free; interval helpers -/

theorem ffree_elim (s : FreeList) (ptr : ℕ) :
    (mapLookup s.sizemap ptr = none ∧
      FreeList.free s ptr = Except.error "Pointer not found") ∨
    (∃ size d, mapLookup s.sizemap ptr = some (size, d) ∧
      FreeList.free s ptr = Except.ok
        { s with sizemap := mapErase s.sizemap ptr
                 freelist :=
                   if s.coalesce then
                     FreeList.coalesceList (FreeList.sortNodes (s.freelist ++ [⟨ptr, size⟩]))
                   else FreeList.sortNodes (s.freelist ++ [⟨ptr, size⟩]) }) := by
  rcases hl : mapLookup s.sizemap ptr with _ | ⟨size, d⟩
  · left
    refine ⟨rfl, ?_⟩
    unfold FreeList.free
    rw [hl]
  · right
    refine ⟨size, d, rfl, ?_⟩
    unfold FreeList.free
    rw [hl]

theorem ffreeSt_elim (s : FreeList) (ptr : ℕ) :
    (mapLookup s.sizemap ptr = none ∧ FreeList.freeSt s ptr = s) ∨
    (∃ size d, mapLookup s.sizemap ptr = some (size, d) ∧
      FreeList.freeSt s ptr =
        { s with sizemap := mapErase s.sizemap ptr
                 freelist :=
                   if s.coalesce then
                     FreeList.coalesceList (FreeList.sortNodes (s.freelist ++ [⟨ptr, size⟩]))
                   else FreeList.sortNodes (s.freelist ++ [⟨ptr, size⟩]) }) := by
  rcases ffree_elim s ptr with ⟨hl, heq⟩ | ⟨size, d, hl, heq⟩
  · left
    exact ⟨hl, by unfold FreeList.freeSt; rw [heq]⟩
  · right
    exact ⟨size, d, hl, by unfold FreeList.freeSt; rw [heq]⟩

theorem idisj_symm {p q : ℕ × ℕ} (h : IDisj p q) : IDisj q p := h.symm

theorem pairwise_idisj_of_perm {A B : List (ℕ × ℕ)} (h : List.Perm A B)
    (hA : A.Pairwise IDisj) : B.Pairwise IDisj :=
  (h.pairwise_iff (fun hab => idisj_symm hab)).mp hA

/-- A sub-interval inherits disjointness. -/
theorem idisj_of_within {p p' q : ℕ × ℕ} (h1 : p.1 ≤ p'.1) (h2 : p'.1 + p'.2 ≤ p.1 + p.2)
    (h : IDisj p q) : IDisj p' q := by
  unfold IDisj at *
  omega

/-- Disjoint positive intervals have distinct start addresses. -/
theorem idisj_addr_ne {p q : ℕ × ℕ} (hp : 0 < p.2) (hq : 0 < q.2) (h : IDisj p q) :
    p.1 ≠ q.1 := by
  unfold IDisj at h
  omega

theorem perm_cons_get_eraseIdx {α : Type} {l : List α} {i : ℕ} {x : α}
    (h : l.get? i = some x) : List.Perm l (x :: l.eraseIdx i) := by
  induction l generalizing i with
  | nil => simp at h
  | cons y tail ih =>
      cases i with
      | zero =>
          rw [List.get?_cons_zero] at h
          obtain rfl := Option.some.inj h
          simp [List.eraseIdx]
      | succ i' =>
          rw [List.get?_cons_succ] at h
          have hperm := ih h
          show List.Perm (y :: tail) (x :: y :: tail.eraseIdx i')
          exact (hperm.cons y).trans (List.Perm.swap x y _)

theorem set_perm_cons_eraseIdx {α : Type} {l : List α} {i : ℕ} {x : α} (v : α)
    (h : l.get? i = some x) : List.Perm (l.set i v) (v :: l.eraseIdx i) := by
  induction l generalizing i with
  | nil => simp at h
  | cons y tail ih =>
      cases i with
      | zero => simp [List.eraseIdx]
      | succ i' =>
          rw [List.get?_cons_succ] at h
          have hperm := ih h
          show List.Perm (y :: tail.set i' v) (v :: y :: tail.eraseIdx i')
          exact (hperm.cons y).trans (List.Perm.swap v y _)

theorem pairwise_set {α : Type} {R : α → α → Prop} {l : List α} {i : ℕ} {old new : α}
    (h : l.get? i = some old) (hPW : l.Pairwise R)
    (h1 : ∀ a, R a old → R a new) (h2 : ∀ b, R old b → R new b) :
    (l.set i new).Pairwise R := by
  induction l generalizing i with
  | nil => simp at h
  | cons y tail ih =>
      cases i with
      | zero =>
          rw [List.get?_cons_zero] at h
          obtain rfl := Option.some.inj h
          rw [List.set_cons_zero]
          refine List.pairwise_cons.mpr ⟨?_, (List.pairwise_cons.mp hPW).2⟩
          intro b hb
          exact h2 b ((List.pairwise_cons.mp hPW).1 b hb)
      | succ i' =>
          rw [List.get?_cons_succ] at h
          rw [List.set_cons_succ]
          have hold : old ∈ tail := List.get?_mem h
          refine List.pairwise_cons.mpr ⟨?_, ih h (List.pairwise_cons.mp hPW).2⟩
          intro b hb
          rcases List.mem_or_eq_of_mem_set hb with hb | rfl
          · exact (List.pairwise_cons.mp hPW).1 b hb
          · exact h1 y ((List.pairwise_cons.mp hPW).1 old hold)

/-! ### Coalescing lemmas -/

theorem coalesceGo_sum (c : FreeNode) (l : List FreeNode) :
    ((FreeList.coalesceGo c l).map (fun n => n.size)).sum =
      c.size + (l.map (fun n => n.size)).sum := by
  induction l generalizing c with
  | nil => simp [FreeList.coalesceGo]
  | cons node rest ih =>
      unfold FreeList.coalesceGo
      by_cases hadj : node.addr = c.addr + c.size
      · rw [if_pos hadj, ih]
        simp
        omega
      · rw [if_neg hadj]
        simp [ih]

theorem coalesceGo_pos (c : FreeNode) (l : List FreeNode) (hc : 0 < c.size)
    (hl : ∀ x ∈ l, 0 < x.size) : ∀ y ∈ FreeList.coalesceGo c l, 0 < y.size := by
  induction l generalizing c with
  | nil =>
      intro y hy
      unfold FreeList.coalesceGo at hy
      simp at hy
      rw [hy]
      exact hc
  | cons node rest ih =>
      intro y hy
      unfold FreeList.coalesceGo at hy
      by_cases hadj : node.addr = c.addr + c.size
      · rw [if_pos hadj] at hy
        exact ih ⟨c.addr, c.size + node.size⟩ (by simp; omega)
          (fun x hx => hl x (List.mem_cons_of_mem _ hx)) y hy
      · rw [if_neg hadj] at hy
        rcases List.mem_cons.mp hy with rfl | hy
        · exact hc
        · exact ih node (hl node (List.mem_cons_self _ _))
            (fun x hx => hl x (List.mem_cons_of_mem _ hx)) y hy

theorem coalesceGo_addr (c : FreeNode) (l : List FreeNode)
    (hch : (c :: l).Pairwise hiLe) :
    ∀ y ∈ FreeList.coalesceGo c l, c.addr ≤ y.addr := by
  induction l generalizing c with
  | nil =>
      intro y hy
      unfold FreeList.coalesceGo at hy
      simp at hy
      rw [hy]
  | cons node rest ih =>
      intro y hy
      unfold FreeList.coalesceGo at hy
      have hcn : hiLe c node := (List.pairwise_cons.mp hch).1 node (List.mem_cons_self _ _)
      by_cases hadj : node.addr = c.addr + c.size
      · rw [if_pos hadj] at hy
        have hch' : ((⟨c.addr, c.size + node.size⟩ : FreeNode) :: rest).Pairwise hiLe := by
          refine List.pairwise_cons.mpr ⟨?_, ((List.pairwise_cons.mp hch).2).sublist
            (List.sublist_cons_self node rest)⟩
          intro r hr
          have h1 : hiLe node r := (List.pairwise_cons.mp (List.pairwise_cons.mp hch).2).1 r hr
          unfold hiLe at *
          simp at *
          omega
        exact ih ⟨c.addr, c.size + node.size⟩ hch' y hy
      · rw [if_neg hadj] at hy
        rcases List.mem_cons.mp hy with rfl | hy
        · exact Nat.le_refl _
        · have hch' : (node :: rest).Pairwise hiLe := (List.pairwise_cons.mp hch).2
          have := ih node hch' y hy
          unfold hiLe at hcn
          omega

theorem coalesceGo_gap (c : FreeNode) (l : List FreeNode)
    (hch : (c :: l).Pairwise hiLe) :
    (FreeList.coalesceGo c l).Pairwise gapLt := by
  induction l generalizing c with
  | nil =>
      unfold FreeList.coalesceGo
      simp
  | cons node rest ih =>
      unfold FreeList.coalesceGo
      have hcn : hiLe c node := (List.pairwise_cons.mp hch).1 node (List.mem_cons_self _ _)
      have hch2 : (node :: rest).Pairwise hiLe := (List.pairwise_cons.mp hch).2
      by_cases hadj : node.addr = c.addr + c.size
      · rw [if_pos hadj]
        have hch' : ((⟨c.addr, c.size + node.size⟩ : FreeNode) :: rest).Pairwise hiLe := by
          refine List.pairwise_cons.mpr ⟨?_, (List.pairwise_cons.mp hch2).2⟩
          intro r hr
          have h1 : hiLe node r := (List.pairwise_cons.mp hch2).1 r hr
          unfold hiLe at *
          simp at *
          omega
        exact ih _ hch'
      · rw [if_neg hadj]
        refine List.pairwise_cons.mpr ⟨?_, ih node hch2⟩
        intro y hy
        have haddr := coalesceGo_addr node rest hch2 y hy
        unfold hiLe at hcn
        unfold gapLt
        omega

theorem coalesceGo_disj (g : ℕ × ℕ) (hg : 0 < g.2) (c : FreeNode) (l : List FreeNode)
    (hg1 : IDisj g (c.addr, c.size)) (hg2 : ∀ x ∈ l, IDisj g (x.addr, x.size)) :
    ∀ y ∈ FreeList.coalesceGo c l, IDisj g (y.addr, y.size) := by
  induction l generalizing c with
  | nil =>
      intro y hy
      unfold FreeList.coalesceGo at hy
      simp at hy
      rw [hy]
      exact hg1
  | cons node rest ih =>
      intro y hy
      unfold FreeList.coalesceGo at hy
      by_cases hadj : node.addr = c.addr + c.size
      · rw [if_pos hadj] at hy
        have hgn : IDisj g (node.addr, node.size) := hg2 node (List.mem_cons_self _ _)
        have hg1' : IDisj g (c.addr, c.size + node.size) := by
          unfold IDisj at *
          simp at *
          omega
        exact ih ⟨c.addr, c.size + node.size⟩ hg1'
          (fun x hx => hg2 x (List.mem_cons_of_mem _ hx)) y hy
      · rw [if_neg hadj] at hy
        rcases List.mem_cons.mp hy with rfl | hy
        · exact hg1
        · exact ih node (hg2 node (List.mem_cons_self _ _))
            (fun x hx => hg2 x (List.mem_cons_of_mem _ hx)) y hy

/-- Sorted plus pairwise-disjoint (with positive sizes) gives the
end-before-start chain. -/
theorem chain_of_sorted_disj (l : List FreeNode)
    (hs : List.Sorted FreeList.nodeLE l)
    (hd : (l.map (fun n => (n.addr, n.size))).Pairwise IDisj)
    (hpos : ∀ n ∈ l, 0 < n.size) : l.Pairwise hiLe := by
  have hd' : l.Pairwise (fun a b => IDisj (a.addr, a.size) (b.addr, b.size)) :=
    List.pairwise_map.mp hd
  have hcomb := hs.and hd'
  refine hcomb.imp_of_mem ?_
  intro a b ha hb hab
  obtain ⟨hle, hdisj⟩ := hab
  have hbpos := hpos b hb
  unfold FreeList.nodeLE at hle
  unfold IDisj at hdisj
  unfold hiLe
  simp at hdisj
  omega

/-! ### Preservation of the free-list invariant -/

theorem map_eraseIdx {α β : Type} (f : α → β) :
    ∀ (l : List α) (i : ℕ), (l.eraseIdx i).map f = (l.map f).eraseIdx i := by
  intro l
  induction l with
  | nil => intro i; simp
  | cons x xs ih =>
      intro i
      cases i with
      | zero => simp [List.eraseIdx]
      | succ i' => simp [List.eraseIdx, ih i']

theorem invf_new (base max : ℕ) (al : ℕ) (p : Policy) (co : Bool) (h : 1 ≤ max) :
    INVf (((FreeList.new base max co).setAlign al).setPolicy p) := by
  unfold INVf FreeList.new FreeList.setAlign FreeList.setPolicy fPieces mapKeys
  refine ⟨h, ?_, ?_, ?_, ?_, ?_⟩
  · intro q hq
    simp at hq
    rw [hq]
    exact h
  · simp
  · simp
  · simp
  · intro _
    simp

theorem fresh_of_pairwise_idisj {s : FreeList} {i : ℕ} {node : FreeNode}
    (hget : s.freelist.get? i = some node)
    (hpos : ∀ p ∈ fPieces s, 0 < p.2)
    (hPW : (fPieces s).Pairwise IDisj) : node.addr ∉ mapKeys s.sizemap := by
  intro hk
  obtain ⟨e, he, hek⟩ := List.mem_map.mp hk
  have hmemL : (node.addr, node.size) ∈ s.freelist.map (fun n => (n.addr, n.size)) :=
    List.mem_map.mpr ⟨node, List.get?_mem hget, rfl⟩
  have hmemG : (e.1, e.2.1) ∈ s.sizemap.map (fun e => (e.1, e.2.1)) :=
    List.mem_map.mpr ⟨e, he, rfl⟩
  have hcross := (List.pairwise_append.mp hPW).2.2 _ hmemL _ hmemG
  have hp1 : 0 < node.size := hpos _ (List.mem_append.mpr (Or.inl hmemL))
  have hp2 : 0 < e.2.1 := hpos _ (List.mem_append.mpr (Or.inr hmemG))
  exact idisj_addr_ne hp1 hp2 hcross (by rw [hek])

theorem invf_malloc (s : FreeList) (size0 : ℕ) (hpos0 : 1 ≤ size0) (h : INVf s) :
    INVf (FreeList.malloc s size0).2 := by
  obtain ⟨hmax, hpos, hPW, hsum, hnd, hco⟩ := h
  rcases fmalloc_elim s size0 with ⟨_, heq⟩ | ⟨i, node, hsel, hget, hsz, hcase⟩
  · rw [heq]; exact ⟨hmax, hpos, hPW, hsum, hnd, hco⟩
  · have hszpos : 1 ≤ (FreeList.alignUp s.align size0).1 :=
      Nat.le_trans hpos0 (alignUp_le s.align size0)
    have hgetm : (s.freelist.map (fun n => (n.addr, n.size))).get? i =
        some (node.addr, node.size) := by
      rw [List.get?_map, hget]
      rfl
    have hLperm := perm_cons_get_eraseIdx hgetm
    have hfresh : node.addr ∉ mapKeys s.sizemap := fresh_of_pairwise_idisj hget hpos hPW
    have hins := mapInsert_fresh (m := s.sizemap) (FreeList.alignUp s.align size0) hfresh
    have hpermOld : List.Perm (fPieces s)
        ((node.addr, node.size) ::
          ((s.freelist.map (fun n => (n.addr, n.size))).eraseIdx i ++
            s.sizemap.map (fun e => (e.1, e.2.1)))) := by
      unfold fPieces
      exact (List.Perm.append_right _ hLperm).trans (List.Perm.refl _)
    have hPW1 := pairwise_idisj_of_perm hpermOld hPW
    have hpos1 : ∀ p ∈ (node.addr, node.size) ::
        ((s.freelist.map (fun n => (n.addr, n.size))).eraseIdx i ++
          s.sizemap.map (fun e => (e.1, e.2.1))), 0 < p.2 := by
      intro p hp
      exact hpos p (hpermOld.mem_iff.mpr hp)
    have hhead := (List.pairwise_cons.mp hPW1).1
    have htail := (List.pairwise_cons.mp hPW1).2
    rcases hcase with ⟨he, heq⟩ | ⟨hlt, heq⟩
    · -- exact fit: the interval is removed, the granted piece replaces it
      rw [heq]
      have hpermNew : List.Perm
          ((s.freelist.eraseIdx i).map (fun n => (n.addr, n.size)) ++
            ((node.addr, FreeList.alignUp s.align size0) :: s.sizemap).map
              (fun e => (e.1, e.2.1)))
          ((node.addr, node.size) ::
            ((s.freelist.map (fun n => (n.addr, n.size))).eraseIdx i ++
              s.sizemap.map (fun e => (e.1, e.2.1)))) := by
        rw [map_eraseIdx]
        have hstep : ((node.addr, FreeList.alignUp s.align size0) :: s.sizemap).map
            (fun e : ℕ × ℕ × ℕ => (e.1, e.2.1)) =
            (node.addr, (FreeList.alignUp s.align size0).1) ::
              s.sizemap.map (fun e => (e.1, e.2.1)) := rfl
        rw [hstep, he]
        exact List.perm_middle
      refine ⟨hmax, ?_, ?_, ?_, ?_, ?_⟩
      · unfold fPieces
        rw [hins]
        intro p hp
        exact hpos1 p (hpermNew.mem_iff.mp hp)
      · unfold fPieces
        rw [hins]
        exact pairwise_idisj_of_perm hpermNew.symm hPW1
      · unfold fPieces
        rw [hins, (hpermNew.map (fun p => p.2)).sum_eq,
          ← (hpermOld.map (fun p => p.2)).sum_eq]
        exact hsum
      · exact mapKeys_insert_nodup _ _ hnd
      · intro hct
        exact (hco hct).sublist (List.eraseIdx_sublist s.freelist i)
    · -- split fit: the interval is shrunk in place
      rw [heq]
      set size := (FreeList.alignUp s.align size0).1 with hsize
      have hsetperm := set_perm_cons_eraseIdx
        (v := (node.addr + size, node.size - size)) hgetm
      have hpermNew : List.Perm
          ((s.freelist.set i ⟨node.addr + size, node.size - size⟩).map
              (fun n => (n.addr, n.size)) ++
            ((node.addr, FreeList.alignUp s.align size0) :: s.sizemap).map
              (fun e => (e.1, e.2.1)))
          ((node.addr + size, node.size - size) :: (node.addr, size) ::
            ((s.freelist.map (fun n => (n.addr, n.size))).eraseIdx i ++
              s.sizemap.map (fun e => (e.1, e.2.1)))) := by
        rw [List.map_set]
        refine (List.Perm.append_right _ hsetperm).trans ?_
        show List.Perm (((node.addr + size, node.size - size) ::
          (s.freelist.map (fun n => (n.addr, n.size))).eraseIdx i) ++
          ((node.addr, size) :: s.sizemap.map (fun e => (e.1, e.2.1)))) _
        refine List.Perm.cons _ ?_
        exact List.perm_middle
      have hPWnew : ((node.addr + size, node.size - size) :: (node.addr, size) ::
          ((s.freelist.map (fun n => (n.addr, n.size))).eraseIdx i ++
            s.sizemap.map (fun e => (e.1, e.2.1)))).Pairwise IDisj := by
        refine List.pairwise_cons.mpr ⟨?_, List.pairwise_cons.mpr ⟨?_, htail⟩⟩
        · intro q hq
          rcases List.mem_cons.mp hq with rfl | hq
          · exact Or.inr (by simp)
          · exact idisj_of_within (by simp) (by simp; omega) (hhead q hq)
        · intro q hq
          exact idisj_of_within (by simp) (by simp; omega) (hhead q hq)
      refine ⟨hmax, ?_, ?_, ?_, ?_, ?_⟩
      · unfold fPieces
        rw [hins]
        intro p hp
        rcases List.mem_cons.mp (hpermNew.mem_iff.mp hp) with rfl | hp2
        · simp
          omega
        · rcases List.mem_cons.mp hp2 with rfl | hp3
          · simp
            omega
          · exact hpos1 p (List.mem_cons_of_mem _ hp3)
      · unfold fPieces
        rw [hins]
        exact pairwise_idisj_of_perm hpermNew.symm hPWnew
      · unfold fPieces
        rw [hins, (hpermNew.map (fun p => p.2)).sum_eq]
        have hold := (hpermOld.map (fun p => p.2)).sum_eq
        rw [hsum] at hold
        simp only [List.map_cons, List.sum_cons] at hold ⊢
        omega
      · exact mapKeys_insert_nodup _ _ hnd
      · intro hct
        refine pairwise_set hget (hco hct) ?_ ?_
        · intro a ha
          unfold gapLt at *
          simp
          omega
        · intro b hb
          unfold gapLt at *
          simp at *
          omega

theorem invf_free (s : FreeList) (ptr : ℕ) (h : INVf s) : INVf (FreeList.freeSt s ptr) := by
  obtain ⟨hmax, hpos, hPW, hsum, hnd, hco⟩ := h
  rcases ffreeSt_elim s ptr with ⟨_, heq⟩ | ⟨size, d, hl, heq⟩
  · rw [heq]; exact ⟨hmax, hpos, hPW, hsum, hnd, hco⟩
  · rw [heq]
    have hperm0 : List.Perm s.sizemap ((ptr, (size, d)) :: mapErase s.sizemap ptr) :=
      perm_cons_erase_of_lookup hnd hl
    have hpermG : List.Perm (s.sizemap.map (fun e => (e.1, e.2.1)))
        ((ptr, size) :: (mapErase s.sizemap ptr).map (fun e => (e.1, e.2.1))) :=
      hperm0.map _
    -- the pieces after re-inserting the freed interval into the free list
    have hmid : List.Perm (fPieces s)
        ((s.freelist ++ [(⟨ptr, size⟩ : FreeNode)]).map (fun n => (n.addr, n.size)) ++
          (mapErase s.sizemap ptr).map (fun e => (e.1, e.2.1))) := by
      unfold fPieces
      refine ((List.Perm.append_left _ hpermG).trans ?_)
      have he : (s.freelist ++ [(⟨ptr, size⟩ : FreeNode)]).map (fun n => (n.addr, n.size)) =
          s.freelist.map (fun n => (n.addr, n.size)) ++ [((ptr : ℕ), size)] := by
        simp
      rw [he, List.append_assoc]
      exact List.Perm.refl _
    have hsortp : List.Perm (FreeList.sortNodes (s.freelist ++ [(⟨ptr, size⟩ : FreeNode)]))
        (s.freelist ++ [(⟨ptr, size⟩ : FreeNode)]) := List.perm_insertionSort _ _
    have hsortmid : List.Perm (fPieces s)
        ((FreeList.sortNodes (s.freelist ++ [(⟨ptr, size⟩ : FreeNode)])).map (fun n => (n.addr, n.size)) ++
          (mapErase s.sizemap ptr).map (fun e => (e.1, e.2.1))) :=
      hmid.trans (List.Perm.append_right _ (hsortp.map _).symm)
    have hPWs := pairwise_idisj_of_perm hsortmid hPW
    have hposs : ∀ p ∈ (FreeList.sortNodes (s.freelist ++ [(⟨ptr, size⟩ : FreeNode)])).map
        (fun n => (n.addr, n.size)) ++
        (mapErase s.sizemap ptr).map (fun e => (e.1, e.2.1)), 0 < p.2 := by
      intro p hp
      exact hpos p (hsortmid.mem_iff.mpr hp)
    have hnd' := mapKeys_erase_nodup (m := s.sizemap) ptr hnd
    by_cases hcol : s.coalesce = true
    · rw [if_pos hcol]
      -- sorted, disjoint, positive: chain, then coalesce
      set l3 := FreeList.sortNodes (s.freelist ++ [(⟨ptr, size⟩ : FreeNode)]) with hl3
      have hsorted : List.Sorted FreeList.nodeLE l3 := List.sorted_insertionSort _ _
      have hdisj3 : (l3.map (fun n => (n.addr, n.size))).Pairwise IDisj :=
        (List.pairwise_append.mp hPWs).1
      have hpos3 : ∀ n ∈ l3, 0 < n.size := by
        intro n hn
        have : (n.addr, n.size) ∈ l3.map (fun n => (n.addr, n.size)) :=
          List.mem_map.mpr ⟨n, hn, rfl⟩
        exact hposs _ (List.mem_append.mpr (Or.inl this))
      have hchain : l3.Pairwise hiLe := chain_of_sorted_disj l3 hsorted hdisj3 hpos3
      rcases hl3e : l3 with _ | ⟨c, rest⟩
      · -- impossible: sorting a nonempty list is nonempty
        exfalso
        have hlen3 := hsortp.length_eq
        rw [hl3e] at hlen3
        simp at hlen3
      · rw [← hl3e]
        have hcoal : FreeList.coalesceList l3 = FreeList.coalesceGo c rest := by
          rw [hl3e]
          rfl
        rw [hcoal]
        rw [hl3e] at hchain hpos3 hdisj3
        have hchainc : (c :: rest).Pairwise hiLe := hchain
        have hgap := coalesceGo_gap c rest hchainc
        have hposc : 0 < c.size := hpos3 c (List.mem_cons_self _ _)
        have hposr : ∀ x ∈ rest, 0 < x.size := fun x hx => hpos3 x (List.mem_cons_of_mem _ hx)
        have hout_pos := coalesceGo_pos c rest hposc hposr
        -- pairwise disjointness of the output pieces
        have hgap_pieces : ((FreeList.coalesceGo c rest).map
            (fun n => (n.addr, n.size))).Pairwise IDisj := by
          refine List.pairwise_map.mpr ?_
          refine hgap.imp ?_
          intro a b hab
          unfold gapLt at hab
          exact Or.inl (by simp; omega)
        have hcross_in : ∀ g ∈ (mapErase s.sizemap ptr).map (fun e => (e.1, e.2.1)),
            ∀ x ∈ (c :: rest), IDisj g (x.addr, x.size) := by
          intro g hg x hx
          refine idisj_symm ?_
          have hxm : (x.addr, x.size) ∈ (c :: rest).map (fun n => (n.addr, n.size)) :=
            List.mem_map.mpr ⟨x, hx, rfl⟩
          rw [← hl3e] at hxm
          exact (List.pairwise_append.mp hPWs).2.2 _ hxm g hg
        have hcross_out : ∀ g ∈ (mapErase s.sizemap ptr).map (fun e => (e.1, e.2.1)),
            ∀ y ∈ FreeList.coalesceGo c rest, IDisj (y.addr, y.size) g := by
          intro g hg y hy
          have hgpos : 0 < g.2 := hposs g (List.mem_append.mpr (Or.inr hg))
          refine idisj_symm ?_
          exact coalesceGo_disj g hgpos c rest
            (hcross_in g hg c (List.mem_cons_self _ _))
            (fun x hx => hcross_in g hg x (List.mem_cons_of_mem _ hx)) y hy
        refine ⟨hmax, ?_, ?_, ?_, hnd', ?_⟩
        · intro p hp
          unfold fPieces at hp
          simp only [] at hp
          rcases List.mem_append.mp hp with hp | hp
          · obtain ⟨y, hy, rfl⟩ := List.mem_map.mp hp
            exact hout_pos y hy
          · exact hposs p (List.mem_append.mpr (Or.inr hp))
        · unfold fPieces
          refine List.pairwise_append.mpr ⟨hgap_pieces, ?_, ?_⟩
          · exact (List.pairwise_append.mp hPWs).2.1
          · intro a ha g hg
            obtain ⟨y, hy, rfl⟩ := List.mem_map.mp ha
            exact hcross_out g hg y hy
        · unfold fPieces
          simp only [List.map_append, List.sum_append]
          have hsum_out : ((FreeList.coalesceGo c rest).map (fun n => (n.addr, n.size))).map
              (fun p => p.2) = (FreeList.coalesceGo c rest).map (fun n => n.size) := by
            rw [List.map_map]
            rfl
          have hsum3 : ((l3.map (fun n => (n.addr, n.size))).map (fun p => p.2)).sum =
              (l3.map (fun n => n.size)).sum := by
            rw [List.map_map]
            rfl
          have hold := (hsortmid.map (fun p => p.2)).sum_eq
          rw [hsum] at hold
          rw [List.map_append, List.sum_append, hsum3, hl3e] at hold
          rw [hsum_out, coalesceGo_sum]
          simp only [List.map_cons, List.sum_cons] at hold
          omega
        · intro _
          exact hgap
    · rw [if_neg hcol]
      refine ⟨hmax, ?_, ?_, ?_, hnd', ?_⟩
      · intro p hp
        exact hposs p hp
      · exact hPWs
      · have hold := (hsortmid.map (fun p => p.2)).sum_eq
        rw [hsum] at hold
        exact hold.symm
      · intro hct
        simp only [] at hct
        exact absurd hct hcol

/-! ### Reachable free-list states satisfy the invariant; conservation -/

theorem reachF_inv {s : FreeList} (h : ReachF s) : INVf s := by
  induction h with
  | init base max al p co h => exact invf_new base max al p co h
  | malloc size _ hpos ih => exact invf_malloc _ size hpos ih
  | free ptr _ ih => exact invf_free _ ptr ih

theorem conservation_of_invf {s : FreeList} (h : INVf s) :
    FreeList.free_space s + FreeList.grantedSum s = s.max_size := by
  obtain ⟨_, _, _, hsum, _, _⟩ := h
  unfold fPieces at hsum
  rw [List.map_append, List.sum_append] at hsum
  have h1 : FreeList.free_space s =
      ((s.freelist.map (fun n => (n.addr, n.size))).map (fun p => p.2)).sum := by
    unfold FreeList.free_space
    rw [List.map_map]
    rfl
  have h2 : FreeList.grantedSum s =
      ((s.sizemap.map (fun e => (e.1, e.2.1))).map (fun p => p.2)).sum := by
    unfold FreeList.grantedSum
    rw [List.map_map]
    rfl
  rw [h1, h2]
  exact hsum

/-! ### malloc succeeds exactly when check_size holds -/

theorem bmalloc_isSome_iff_check (s : BuddyAllocator) (size : ℕ) :
    (BuddyAllocator.malloc s size).1.isSome = BuddyAllocator.check_size s size := by
  rcases malloc_elim s size with ⟨h0, heq⟩ | ⟨a, rest, h0, hlv, heq⟩ |
    ⟨h0, hlv, hup, heq⟩ | ⟨c, a, rest, h0, hlv, hup, hlv2, heq⟩
  · rw [heq]
    unfold BuddyAllocator.check_size
    rw [if_pos (show clog2 size > s.max_size from by omega)]
    rfl
  · rw [heq]
    unfold BuddyAllocator.check_size
    rw [if_neg (show ¬ (clog2 size > s.max_size) from by omega)]
    simp only [hlv]
    simp
  · rw [heq]
    unfold BuddyAllocator.check_size
    rw [if_neg (show ¬ (clog2 size > s.max_size) from by omega)]
    simp only [hlv, hup]
    simp
  · rw [heq]
    unfold BuddyAllocator.check_size
    rw [if_neg (show ¬ (clog2 size > s.max_size) from by omega)]
    simp only [hlv, hup]
    simp

theorem fmalloc_isSome_iff_check (s : FreeList) (size0 : ℕ) :
    (FreeList.malloc s size0).1.isSome = FreeList.check_size s size0 := by
  have hbody : FreeList.check_size s size0 =
      (match s.policy with
       | Policy.Best => FreeList.best s (FreeList.alignUp s.align size0).1
       | Policy.First => FreeList.first s (FreeList.alignUp s.align size0).1).isSome := by
    unfold FreeList.check_size
    rcases hp : s.policy with _ | _ <;> simp only [hp] <;> rfl
  rcases fmalloc_elim s size0 with ⟨hsel, heq⟩ | ⟨i, node, hsel, hget, hsz, hcase⟩
  · rw [heq, hbody, hsel]
  · rcases hcase with ⟨_, heq⟩ | ⟨_, heq⟩ <;> rw [heq, hbody, hsel] <;> rfl

/-! ### largest_alloc probing -/

theorem bcheck_oversize (s : BuddyAllocator) :
    BuddyAllocator.check_size s (2 ^ s.max_size + 2) = false := by
  unfold BuddyAllocator.check_size
  rw [if_pos]
  show s.max_size < clog2 (2 ^ s.max_size + 2)
  rw [lt_clog2_iff]
  omega

theorem sizes_le_max_of_invf {s : FreeList} (h : INVf s) :
    ∀ n ∈ s.freelist, n.size ≤ s.max_size := by
  obtain ⟨_, _, _, hsum, _, _⟩ := h
  intro n hn
  have hmem : ((n.addr, n.size) : ℕ × ℕ) ∈ fPieces s := by
    unfold fPieces
    exact List.mem_append.mpr (Or.inl (List.mem_map.mpr ⟨n, hn, rfl⟩))
  have hle : n.size ≤ ((fPieces s).map (fun p => p.2)).sum :=
    List.single_le_sum (fun x _ => Nat.zero_le x) _ (List.mem_map.mpr ⟨_, hmem, rfl⟩)
  omega

theorem fcheck_oversize {s : FreeList} (hb : ∀ n ∈ s.freelist, n.size ≤ s.max_size) :
    FreeList.check_size s (s.max_size + 2) = false := by
  unfold FreeList.check_size
  have hround : s.max_size + 2 ≤ (FreeList.alignUp s.align (s.max_size + 2)).1 :=
    alignUp_le s.align (s.max_size + 2)
  rcases hp : s.policy with _ | _ <;> simp only [hp]
  · rcases hbest : FreeList.best s (FreeList.alignUp s.align (s.max_size + 2)).1 with _ | i
    · simp
    · obtain ⟨node, hget, hsz⟩ := best_some_node s _ i hbest
      have := hb node (List.get?_mem hget)
      omega
  · rcases hfirst : FreeList.first s (FreeList.alignUp s.align (s.max_size + 2)).1 with _ | i
    · simp
    · obtain ⟨node, hget, hsz⟩ := first_some_node s _ i hfirst
      have := hb node (List.get?_mem hget)
      omega

/-- The generic shape of the probing loop `largest_alloc`: given that the
probe fails just past the fuel window, the result `L` satisfies
`check L` (when `L ≥ 1`) and `¬ check (L + 1)`. -/
theorem findFirst_largest (check : ℕ → Bool) (fuel : ℕ)
    (hover : check (fuel + 2) = false) :
    (0 < findFirst (fun x => ! check x) 1 (fuel + 1) - 1 →
      check (findFirst (fun x => ! check x) 1 (fuel + 1) - 1) = true) ∧
    check (findFirst (fun x => ! check x) 1 (fuel + 1) - 1 + 1) = false := by
  have hspec := findFirst_spec (fun x => ! check x) (fuel + 1) 1
    (by simp only [show 1 + (fuel + 1) = fuel + 2 from by omega, hover]; rfl)
  obtain ⟨h1, h2, h3⟩ := hspec
  set r := findFirst (fun x => ! check x) 1 (fuel + 1) with hr
  constructor
  · intro hL
    have hz := h3 (r - 1) (by omega) (by omega)
    simp at hz
    exact hz
  · have : r - 1 + 1 = r := by omega
    rw [this]
    simpa using h1

/-! ### free success characterisation -/

theorem bfreeOk_iff (s : BuddyAllocator) (p : ℕ) :
    BuddyAllocator.freeOk s p = true ↔ p ∈ mapKeys s.sizemap := by
  rcases free_elim s p with ⟨hl, heq⟩ | ⟨c, d, hl, heq⟩
  · unfold BuddyAllocator.freeOk
    rw [heq]
    simp [mapLookup_none_iff.mp hl]
  · unfold BuddyAllocator.freeOk
    rw [heq]
    simp
    exact List.mem_map.mpr ⟨(p, (c, d)), mapLookup_mem hl, rfl⟩

theorem ffreeOk_iff (s : FreeList) (p : ℕ) :
    FreeList.freeOk s p = true ↔ p ∈ mapKeys s.sizemap := by
  rcases ffree_elim s p with ⟨hl, heq⟩ | ⟨c, d, hl, heq⟩
  · unfold FreeList.freeOk
    rw [heq]
    simp [mapLookup_none_iff.mp hl]
  · unfold FreeList.freeOk
    rw [heq]
    simp
    exact List.mem_map.mpr ⟨(p, (c, d)), mapLookup_mem hl, rfl⟩

theorem bfreeSt_keys (s : BuddyAllocator) (p : ℕ) :
    p ∉ mapKeys (BuddyAllocator.freeSt s p).sizemap := by
  rcases freeSt_elim s p with ⟨hl, heq⟩ | ⟨c, d, hl, heq⟩
  · rw [heq]
    exact mapLookup_none_iff.mp hl
  · rw [heq]
    exact mapErase_not_mem s.sizemap p

theorem ffreeSt_keys (s : FreeList) (p : ℕ) :
    p ∉ mapKeys (FreeList.freeSt s p).sizemap := by
  rcases ffreeSt_elim s p with ⟨hl, heq⟩ | ⟨c, d, hl, heq⟩
  · rw [heq]
    exact mapLookup_none_iff.mp hl
  · rw [heq]
    exact mapErase_not_mem s.sizemap p

/-! ## The claims -/

/-- C1: the spec requires every free block at size class `k` to have an
address divisible by `2^k`, with the merged block taking the lower address
of a buddy pair.  The code violates this: `BuddyAllocator::free` keeps the
freed pointer's address when it merges (buddy.rs lines 174-190), so on a
capacity-2 heap the run `malloc(1); malloc(1); free(0); free(1)` leaves the
class-1 free list holding the block address 1, which is not divisible
by `2^1`. -/
theorem c1_buddy_misalignment :
    c1state.min_size = 0 ∧ c1state.max_size = 1 ∧
    BuddyAllocator.getLevel c1state.levels 1 = [1] ∧ ¬ (2 ^ 1 ∣ 1) := by decide

/-- C2: conservation.  On every reachable state of either engine (any
sequence of positive-size malloc and free calls from a well-formed
constructor call), `free_space()` plus the sum of granted sizes of live
allocations equals the capacity: `2^max_size` for the buddy allocator and
`max_size` for the free list. -/
theorem c2_conservation (sb : BuddyAllocator) (sf : FreeList)
    (hb : ReachB sb) (hf : ReachF sf) :
    BuddyAllocator.free_space sb + BuddyAllocator.grantedSum sb = 2 ^ sb.max_size ∧
    FreeList.free_space sf + FreeList.grantedSum sf = sf.max_size :=
  ⟨conservation_of_invb (reachB_inv hb), conservation_of_invf (reachF_inv hf)⟩

/-- Witness for C2 on concrete reachable states (one malloc each). -/
theorem c2_conservation_witness :
    BuddyAllocator.free_space (BuddyAllocator.malloc (BuddyAllocator.new 0 2) 1).2 +
      BuddyAllocator.grantedSum (BuddyAllocator.malloc (BuddyAllocator.new 0 2) 1).2 =
      2 ^ (BuddyAllocator.malloc (BuddyAllocator.new 0 2) 1).2.max_size ∧
    FreeList.free_space
        (FreeList.malloc (((FreeList.new 1000 100 false).setAlign 4).setPolicy Policy.Best) 7).2 +
      FreeList.grantedSum
        (FreeList.malloc (((FreeList.new 1000 100 false).setAlign 4).setPolicy Policy.Best) 7).2 =
      (FreeList.malloc (((FreeList.new 1000 100 false).setAlign 4).setPolicy Policy.Best) 7).2.max_size :=
  c2_conservation _ _
    (ReachB.malloc 1 (ReachB.init 0 2 (by decide)) (by decide))
    (ReachF.malloc 7 (ReachF.init 1000 100 4 Policy.Best false (by decide)) (by decide))

/-- C7: for both engines, `free(addr)` succeeds exactly when `addr` is a
key of the engine's sizemap (so double-free and never-allocated frees
report NotFound), and after any `free` call the address is no longer
tracked, making a second `free` of the same address always fail. -/
theorem c7_free_iff_tracked (sb : BuddyAllocator) (sf : FreeList) (p : ℕ) :
    (BuddyAllocator.freeOk sb p = true ↔ p ∈ mapKeys sb.sizemap) ∧
    BuddyAllocator.freeOk (BuddyAllocator.freeSt sb p) p = false ∧
    (FreeList.freeOk sf p = true ↔ p ∈ mapKeys sf.sizemap) ∧
    FreeList.freeOk (FreeList.freeSt sf p) p = false := by
  refine ⟨bfreeOk_iff sb p, ?_, ffreeOk_iff sf p, ?_⟩
  · rcases hb : BuddyAllocator.freeOk (BuddyAllocator.freeSt sb p) p with _ | _
    · rfl
    · exact absurd ((bfreeOk_iff _ p).mp hb) (bfreeSt_keys sb p)
  · rcases hf : FreeList.freeOk (FreeList.freeSt sf p) p with _ | _
    · rfl
    · exact absurd ((ffreeOk_iff _ p).mp hf) (ffreeSt_keys sf p)

/-- C8: failing operations are atomic.  Whenever `malloc` returns `None` or
`free` reports NotFound — in either engine — the allocator state after the
call is exactly the state before it. -/
theorem c8_failure_atomic (sb1 sb2 : BuddyAllocator) (sf1 sf2 : FreeList)
    (z1 z2 p1 p2 : ℕ)
    (h1 : (BuddyAllocator.malloc sb1 z1).1 = none)
    (h2 : BuddyAllocator.freeOk sb2 p1 = false)
    (h3 : (FreeList.malloc sf1 z2).1 = none)
    (h4 : FreeList.freeOk sf2 p2 = false) :
    (BuddyAllocator.malloc sb1 z1).2 = sb1 ∧ BuddyAllocator.freeSt sb2 p1 = sb2 ∧
    (FreeList.malloc sf1 z2).2 = sf1 ∧ FreeList.freeSt sf2 p2 = sf2 := by
  refine ⟨?_, ?_, ?_, ?_⟩
  · rcases malloc_elim sb1 z1 with ⟨_, heq⟩ | ⟨a, rest, _, _, heq⟩ |
      ⟨_, _, _, heq⟩ | ⟨c, a, rest, _, _, _, _, heq⟩
    · rw [heq]
    · rw [heq] at h1; simp at h1
    · rw [heq]
    · rw [heq] at h1; simp at h1
  · rcases freeSt_elim sb2 p1 with ⟨hl, heq⟩ | ⟨c, d, hl, heq⟩
    · rw [heq]
    · exfalso
      have := (bfreeOk_iff sb2 p1).mpr
        (List.mem_map.mpr ⟨(p1, (c, d)), mapLookup_mem hl, rfl⟩)
      rw [h2] at this
      exact Bool.false_ne_true this
  · rcases fmalloc_elim sf1 z2 with ⟨_, heq⟩ | ⟨i, node, _, _, _, hcase⟩
    · rw [heq]
    · rcases hcase with ⟨_, heq⟩ | ⟨_, heq⟩ <;> rw [heq] at h3 <;> simp at h3
  · rcases ffreeSt_elim sf2 p2 with ⟨hl, heq⟩ | ⟨c, d, hl, heq⟩
    · rw [heq]
    · exfalso
      have := (ffreeOk_iff sf2 p2).mpr
        (List.mem_map.mpr ⟨(p2, (c, d)), mapLookup_mem hl, rfl⟩)
      rw [h4] at this
      exact Bool.false_ne_true this

/-- Witness for C8 at concrete failing calls: an oversized buddy request,
a free of an untracked pointer in both engines, and an oversized free-list
request. -/
theorem c8_failure_atomic_witness :
    ((BuddyAllocator.malloc (BuddyAllocator.new 0 1) 4).1 = none ∧
     BuddyAllocator.freeOk (BuddyAllocator.new 0 1) 5 = false ∧
     (FreeList.malloc (FreeList.new 0 3 false) 9).1 = none ∧
     FreeList.freeOk (FreeList.new 0 3 false) 0 = false) ∧
    ((BuddyAllocator.malloc (BuddyAllocator.new 0 1) 4).2 = BuddyAllocator.new 0 1 ∧
     BuddyAllocator.freeSt (BuddyAllocator.new 0 1) 5 = BuddyAllocator.new 0 1 ∧
     (FreeList.malloc (FreeList.new 0 3 false) 9).2 = FreeList.new 0 3 false ∧
     FreeList.freeSt (FreeList.new 0 3 false) 0 = FreeList.new 0 3 false) :=
  ⟨⟨by decide, by decide, by decide, by decide⟩,
   c8_failure_atomic _ _ _ _ 4 9 5 0 (by decide) (by decide) (by decide) (by decide)⟩

/-- C9: the claim says `external_frag()` special-cases `free_space() == 0`
to return 0 or an explicit not-applicable value.  The code
(`lib.rs` lines 36-38) computes `1.0 - largest as f32 / free as f32` with
no special case, so with zero free space it returns the IEEE NaN produced
by `0.0 / 0.0`, not 0: a capacity-1 buddy heap after `malloc(1)` has
`free_space() == 0` and `external_frag()` NaN. -/
theorem c9_external_frag_nan :
    BuddyAllocator.free_space c9state = 0 ∧
    BuddyAllocator.largest_alloc c9state = 0 ∧
    BuddyAllocator.external_frag c9state = F32.nan ∧
    F32.nan ≠ F32.fin 0 := by decide

/-- An option that is not `isSome` is `none`. -/
theorem option_eq_none {α : Type} {o : Option α} (h : o.isSome = false) : o = none := by
  cases o
  · rfl
  · simp at h

/-- C5 counterexample: the claim says best-fit ties break by FIRST
occurrence.  On the reachable state `c5state` (heap `[0,4)`, three
`malloc(1)` then `free(0)`) the free list is `[(0,1), (3,1)]`, both of
size 1 and adequate for a request of 1; the first-occurrence rule (encoded
by `bestSpecFirstTie`) picks index 0, address 0, but the source's `best`
(`node.size <= bestsize` keeps updating on ties) picks index 1, and
`malloc(1)` returns address 3 — not 0. -/
theorem c5_counterexample :
    c5state.policy = Policy.Best ∧ c5state.align ≤ 1 ∧
    c5state.freelist = [⟨0, 1⟩, ⟨3, 1⟩] ∧
    bestSpecFirstTie c5state.freelist 1 = some 0 ∧
    FreeList.best c5state 1 = some 1 ∧
    (FreeList.malloc c5state 1).1 = some 3 ∧
    some 3 ≠ some 0 := by decide

/-- C5 (amended): for every state whose free-interval sizes are bounded by
the capacity (true of all reachable states) the candidate `best` selects is
an interval of minimal adequate size, and among the intervals sharing that
minimal adequate size it is the LAST one in current list order (the source
updates its running best on ties); with alignment disabled and best-fit
policy, `malloc` returns exactly that interval's address. -/
theorem c5_best_fit_last_tie (s : FreeList) (sz i : ℕ)
    (hbound : ∀ n ∈ s.freelist, n.size ≤ s.max_size)
    (h : FreeList.best s sz = some i) :
    ∃ node, s.freelist.get? i = some node ∧ sz ≤ node.size ∧
      (∀ k nk, s.freelist.get? k = some nk → sz ≤ nk.size → node.size ≤ nk.size) ∧
      (∀ k nk, s.freelist.get? k = some nk → i < k → sz ≤ nk.size → node.size < nk.size) ∧
      (s.policy = Policy.Best → s.align ≤ 1 →
        (FreeList.malloc s sz).1 = some node.addr) := by
  have h' := h
  unfold FreeList.best at h'
  rcases bestGo_some sz s.freelist 0 s.max_size none i (by simp) h' with
    ⟨_, habs, _⟩ | ⟨d, nd, hget, hk, h1, h2, hmin, hlast⟩
  · simp at habs
  · obtain rfl : i = d := by omega
    refine ⟨nd, hget, h1, ?_, ?_, ?_⟩
    · intro k nk hknk hsz
      exact hmin k nk hknk hsz (hbound nk (List.get?_mem hknk))
    · intro k nk hknk hik hsz
      exact hlast k nk hknk hik hsz (hbound nk (List.get?_mem hknk))
    · intro hpol hal
      rcases fmalloc_elim s sz with ⟨hsel, heq⟩ | ⟨i2, node2, hsel, hget2, hsz2, hcase⟩
      · exfalso
        simp only [hpol, alignUp_id sz hal] at hsel
        rw [hsel] at h
        simp at h
      · simp only [hpol, alignUp_id sz hal] at hsel
        rw [h] at hsel
        obtain rfl : i2 = i := (Option.some.inj hsel).symm
        obtain rfl : node2 = nd := by
          rw [hget] at hget2
          exact (Option.some.inj hget2).symm
        rcases hcase with ⟨_, heq⟩ | ⟨_, heq⟩ <;> rw [heq]

/-- Witness for C5's amended statement at the concrete state `c5state`. -/
theorem c5_best_fit_last_tie_witness :
    (∀ n ∈ c5state.freelist, n.size ≤ c5state.max_size) ∧
    FreeList.best c5state 1 = some 1 ∧
    (∃ node, c5state.freelist.get? 1 = some node ∧ 1 ≤ node.size ∧
      (∀ k nk, c5state.freelist.get? k = some nk → 1 ≤ nk.size → node.size ≤ nk.size) ∧
      (∀ k nk, c5state.freelist.get? k = some nk → 1 < k → 1 ≤ nk.size → node.size < nk.size) ∧
      (c5state.policy = Policy.Best → c5state.align ≤ 1 →
        (FreeList.malloc c5state 1).1 = some node.addr)) :=
  ⟨by decide, by decide, c5_best_fit_last_tie c5state 1 1 (by decide) (by decide)⟩

/-- C6: on every reachable free-list state no two free intervals overlap,
and on a coalescing allocator no two free intervals are address-adjacent at
the moment any `free` call returns (in fact coalescing reachable states
never contain an adjacent pair, so this also covers failed frees, which
leave the state unchanged). -/
theorem c6_freelist_disjoint (s : FreeList) (h : ReachF s) (ptr : ℕ) :
    s.freelist.Pairwise
      (fun a b => a.addr + a.size ≤ b.addr ∨ b.addr + b.size ≤ a.addr) ∧
    (s.coalesce = true →
      ∀ a ∈ (FreeList.freeSt s ptr).freelist, ∀ b ∈ (FreeList.freeSt s ptr).freelist,
        a.addr + a.size ≠ b.addr) := by
  constructor
  · have hPW := (reachF_inv h).2.2.1
    unfold fPieces at hPW
    have hL := (List.pairwise_append.mp hPW).1
    have := List.pairwise_map.mp hL
    exact this.imp (fun hab => hab)
  · intro hco a ha b hb
    have h' : ReachF (FreeList.freeSt s ptr) := ReachF.free ptr h
    have hinv := reachF_inv h'
    have hco' : (FreeList.freeSt s ptr).coalesce = s.coalesce := by
      rcases ffreeSt_elim s ptr with ⟨_, heq⟩ | ⟨c, d, _, heq⟩ <;> rw [heq]
    have hchain : (FreeList.freeSt s ptr).freelist.Pairwise gapLt :=
      hinv.2.2.2.2.2 (by rw [hco']; exact hco)
    have hpos : 0 < a.size ∧ 0 < b.size := by
      have hp := hinv.2.1
      constructor
      · refine hp (a.addr, a.size) ?_
        unfold fPieces
        exact List.mem_append.mpr (Or.inl (List.mem_map.mpr ⟨a, ha, rfl⟩))
      · refine hp (b.addr, b.size) ?_
        unfold fPieces
        exact List.mem_append.mpr (Or.inl (List.mem_map.mpr ⟨b, hb, rfl⟩))
    by_cases hab : a = b
    · subst hab
      unfold gapLt at *
      omega
    · have hsym : Symmetric (fun x y : FreeNode => gapLt x y ∨ gapLt y x) := by
        intro x y hxy
        exact hxy.symm
      have hPW' : (FreeList.freeSt s ptr).freelist.Pairwise
          (fun x y => gapLt x y ∨ gapLt y x) := hchain.imp (fun hxy => Or.inl hxy)
      have := hPW'.forall hsym ha hb hab
      unfold gapLt at this
      omega

/-- Witness for C6 on a reachable coalescing state. -/
theorem c6_freelist_disjoint_witness :
    (((FreeList.new 0 8 true).setAlign 0).setPolicy Policy.Best).freelist.Pairwise
      (fun a b => a.addr + a.size ≤ b.addr ∨ b.addr + b.size ≤ a.addr) ∧
    ((((FreeList.new 0 8 true).setAlign 0).setPolicy Policy.Best).coalesce = true →
      ∀ a ∈ (FreeList.freeSt (((FreeList.new 0 8 true).setAlign 0).setPolicy Policy.Best)
          0).freelist,
      ∀ b ∈ (FreeList.freeSt (((FreeList.new 0 8 true).setAlign 0).setPolicy Policy.Best)
          0).freelist,
        a.addr + a.size ≠ b.addr) :=
  c6_freelist_disjoint _ (ReachF.init 0 8 0 Policy.Best true (by decide)) 0

/-- C10 counterexample: on the state `c10state` — reachable on a
coalescing heap via a `malloc(0)`/`free` round trip, with a positive-size
interval present as the claim requires — `malloc(0)` picks the zero-size
interval `(3, 0)` (its size is minimal-adequate), removes it from the free
list, and returns `Some 3`: the chosen interval does not remain in the
free list unchanged. -/
theorem c10_counterexample :
    (∃ n ∈ c10state.freelist, 0 < n.size) ∧ c10state.align ≤ 1 ∧
    (FreeList.malloc c10state 0).1 = some 3 ∧
    (FreeList.malloc c10state 0).2.freelist = [⟨0, 10⟩] ∧
    (FreeList.malloc c10state 0).2.freelist ≠ c10state.freelist := by decide

/-- A list is unchanged by writing back the element already at a position. -/
theorem set_get_self {α : Type} {l : List α} {i : ℕ} {x : α}
    (h : l.get? i = some x) : l.set i x = l := by
  induction l generalizing i with
  | nil => rfl
  | cons y tail ih =>
      cases i with
      | zero =>
          rw [List.get?_cons_zero] at h
          obtain rfl := Option.some.inj h
          rfl
      | succ i' =>
          rw [List.get?_cons_succ] at h
          rw [List.set_cons_succ, ih h]

/-- C10 (amended): with alignment disabled, `malloc(0)` on any state whose
free list is nonempty and all of whose intervals have positive size (and
size at most the capacity, as on every reachable state) returns `Some a`
for the address `a` of a chosen free interval, leaves the free list
unchanged, and records `(0, 0)` for `a` in the sizemap — so `a` is
simultaneously tracked as allocated and still covered by a free
interval. -/
theorem c10_zero_malloc (s : FreeList) (halign : s.align ≤ 1) (hne : s.freelist ≠ [])
    (hpos : ∀ n ∈ s.freelist, 0 < n.size)
    (hbound : ∀ n ∈ s.freelist, n.size ≤ s.max_size) :
    ∃ a, (FreeList.malloc s 0).1 = some a ∧
      (FreeList.malloc s 0).2.freelist = s.freelist ∧
      (∃ n ∈ s.freelist, n.addr = a) ∧
      mapLookup ((FreeList.malloc s 0).2).sizemap a = some (0, 0) := by
  rcases fmalloc_elim s 0 with ⟨hsel, heq⟩ | ⟨i, node, hsel, hget, hsz, hcase⟩
  · exfalso
    rcases hnl : s.freelist with _ | ⟨n0, rest⟩
    · exact hne hnl
    · have hn0 : n0 ∈ s.freelist := by rw [hnl]; exact List.mem_cons_self _ _
      rcases hp : s.policy with _ | _ <;>
        simp only [hp, alignUp_id 0 halign] at hsel
      · obtain ⟨_, hall⟩ := bestGo_none 0 s.freelist 0 s.max_size none hsel
        exact hall n0 hn0 ⟨Nat.zero_le _, hbound n0 hn0⟩
      · have hall := firstGo_none 0 s.freelist 0 hsel
        exact hall n0 hn0 (Nat.zero_le _)
  · have hnodemem : node ∈ s.freelist := List.get?_mem hget
    have hnodepos : 0 < node.size := hpos node hnodemem
    rcases hcase with ⟨he, heq⟩ | ⟨hlt, heq⟩
    · exfalso
      rw [alignUp_id 0 halign] at he
      simp at he
      omega
    · refine ⟨node.addr, ?_, ?_, ⟨node, hnodemem, rfl⟩, ?_⟩
      · rw [heq]
      · rw [heq]
        simp only [alignUp_id 0 halign]
        have hn : (⟨node.addr + 0, node.size - 0⟩ : FreeNode) = node := by
          cases node
          simp
        rw [hn]
        exact set_get_self hget
      · rw [heq]
        simp only [alignUp_id 0 halign]
        exact mapLookup_insert_self _ _ _

/-- Witness for C10's amended statement on a fresh heap. -/
theorem c10_zero_malloc_witness :
    ((FreeList.new 5 7 false).align ≤ 1 ∧ (FreeList.new 5 7 false).freelist ≠ [] ∧
     (∀ n ∈ (FreeList.new 5 7 false).freelist, 0 < n.size) ∧
     (∀ n ∈ (FreeList.new 5 7 false).freelist, n.size ≤ (FreeList.new 5 7 false).max_size)) ∧
    (∃ a, (FreeList.malloc (FreeList.new 5 7 false) 0).1 = some a ∧
      (FreeList.malloc (FreeList.new 5 7 false) 0).2.freelist =
        (FreeList.new 5 7 false).freelist ∧
      (∃ n ∈ (FreeList.new 5 7 false).freelist, n.addr = a) ∧
      mapLookup ((FreeList.malloc (FreeList.new 5 7 false) 0).2).sizemap a = some (0, 0)) :=
  ⟨⟨by decide, by decide, by decide, by decide⟩,
   c10_zero_malloc (FreeList.new 5 7 false) (by decide) (by decide) (by decide) (by decide)⟩
